import Mathlib

/-!
Verification of the repointel dependency-graph and slicing engine.

Shallow embedding of the module resolver, seeded/full dependency-graph
builders, cycle detector and budgeted slicer of the `repointel` repository
(`src/core/dep-graph.ts`, `src/core/slicer.ts`, `src/core/utils.ts`), with
theorems checking the natural-language specification against it.

Modelling conventions:
* The filesystem is an association list from *normalized repository-relative*
  paths to file contents.  A Node call `fs.existsSync(path.join(repoRoot, p))`
  is modelled as a lookup of `normalizePath p` (the constant `repoRoot`
  prefix is dropped), and `fs.statSync(p).size` as the content length.
* Machine numbers are `Nat` (sizes, depths, counts) and `Rat` for the one
  fractional statistic (`avgDepsPerFile`); JavaScript strings are `String`.
  String primitives (`split`, `startsWith`, …) are given explicit
  character-list implementations so that every definition evaluates.
* `new Date().toISOString()` is modelled by an explicit `now : String`
  argument, and `getGitCommit` by an explicit `gitCommit : Option String`
  argument: both are the only environment reads of the builders.
-/

namespace RepoIntel

/-! ## String primitives over character lists -/

/-- Match a literal character sequence at the front, returning the rest. -/
def afterLit : List Char → List Char → Option (List Char)
  | [], cs => some cs
  | _ :: _, [] => none
  | p :: ps, c :: cs => if p = c then afterLit ps cs else none

/-- Model of `s.startsWith pat`. -/
def startsWithStr (s pat : String) : Bool :=
  (afterLit pat.data s.data).isSome

/-- Model of `s.endsWith pat`. -/
def endsWithStr (s pat : String) : Bool :=
  (afterLit pat.data.reverse s.data.reverse).isSome

/-- Model of `s.slice(n)` / `String.drop`. -/
def dropStr (s : String) (n : Nat) : String :=
  ⟨s.data.drop n⟩

/-- Remove the last `n` characters. -/
def dropRightStr (s : String) (n : Nat) : String :=
  ⟨s.data.take (s.data.length - n)⟩

/-- Model of `s.length` (JavaScript string length; code points coincide with UTF-16
units on the ASCII data handled here). -/
def strLen (s : String) : Nat := s.data.length

/-- Split a character list on a separator character (`String.split`
semantics for a one-character separator). -/
def splitOnChar (c : Char) : List Char → List (List Char)
  | [] => [[]]
  | d :: rest =>
    let r := splitOnChar c rest
    if d = c then [] :: r
    else
      match r with
      | [] => [[d]]
      | g :: gs => (d :: g) :: gs

/-- Model of `s.split("/")`. -/
def splitSlash (s : String) : List String :=
  (splitOnChar '/' s.data).map (fun cs => ⟨cs⟩)

/-- Join character lists with a separator. -/
def intercalateChars (sep : List Char) : List (List Char) → List Char
  | [] => []
  | [x] => x
  | x :: xs => x ++ sep ++ intercalateChars sep xs

/-- Model of `parts.join("/")`. -/
def joinSlash (parts : List String) : String :=
  ⟨intercalateChars ['/'] (parts.map String.data)⟩

/-! ## Posix path model (`node:path` as used by the engine) -/

/-- One step of posix `path.normalize` segment processing: empty and `.`
segments are dropped, `..` pops the previous segment unless there is none
(or it is itself a `..`), in which case it is kept.  The accumulator holds
the segments seen so far in reverse order. -/
def normStep (acc : List String) (seg : String) : List String :=
  if seg = "" ∨ seg = "." then acc
  else if seg = ".." then
    match acc with
    | [] => [".."]
    | a :: rest => if a = ".." then ".." :: a :: rest else rest
  else seg :: acc

/-- Posix `path.normalize` on relative paths: split on `/`, resolve `.` and
`..`, rejoin.  An empty result normalizes to `"."` as in Node. -/
def normalizePath (s : String) : String :=
  let segs := ((splitSlash s).foldl normStep []).reverse
  let r := joinSlash segs
  if r = "" then "." else r

/-- Posix `path.join a b` = `normalize (a ++ "/" ++ b)` for relative paths. -/
def pathJoin (a b : String) : String :=
  normalizePath (a ++ "/" ++ b)

/-- Posix `path.dirname` for relative paths: everything before the last
separator, `"."` when there is none. -/
def dirname (s : String) : String :=
  match (splitSlash s).dropLast with
  | [] => "."
  | parts => joinSlash parts

example : normalizePath "././y" = "y" := by decide
example : pathJoin "a/b" "../c" = "a/c" := by decide
example : dirname "x.ts" = "." := by decide
example : dirname "a/b/c.ts" = "a/b" := by decide

/-! ## Filesystem and repository-index model -/

/-- The filesystem: association list from normalized repo-relative paths to
file contents. -/
abbrev FS := List (String × String)

/-- Model of `fs.readFileSync(path.join(repoRoot, p))` guarded by try/catch
(`readFileSafe` in `utils.ts`): `none` when the file does not exist. -/
def readFileAt (fsys : FS) (p : String) : Option String :=
  List.lookup (normalizePath p) fsys

/-- Model of `fs.existsSync(path.join(repoRoot, p))`. -/
def fsExistsAt (fsys : FS) (p : String) : Bool :=
  (readFileAt fsys p).isSome

/-- A `FileInfo` record produced by the indexing collaborator (`indexer.ts`),
restricted to the fields the graph engine reads: relative path, file-type
tag, and the ordered raw import specifiers. -/
structure FileRec where
  relativePath : String
  type : String
  imports : List String
deriving Repr, DecidableEq

/-- The repository index (the `index.files` array). -/
abbrev RepoIndex := List FileRec

/-- Model of `fileMap.get(p)` where `fileMap` was built by `fileMap.set(f.relativePath, f)`
over the index in order (later entries overwrite earlier ones). -/
def lookupFile (index : RepoIndex) (p : String) : Option FileRec :=
  index.foldl (fun acc f => if f.relativePath = p then some f else acc) none

/-- The import list of a path, `[]` when the path is not indexed
(`fileInfo?.imports || []`). -/
def importsOf (index : RepoIndex) (p : String) : List String :=
  match lookupFile index p with
  | some f => f.imports
  | none => []

/-! ## Module resolver (`tryResolveFile` / `resolveImport` in dep-graph.ts) -/

/-- The recognized source extensions, in the fixed priority order of the
`extensions` array in `tryResolveFile`. -/
def knownExts : List String := [".tsx", ".ts", ".jsx", ".js", ".mjs"]

/-- Model of `basePath.replace(/\.(tsx?|jsx?|mjs)$/, "")`: strip one recognized
extension already present (at most one of the five suffixes can match). -/
def stripExt (basePath : String) : String :=
  match knownExts.find? (fun ext => endsWithStr basePath ext) with
  | some ext => dropRightStr basePath (strLen ext)
  | none => basePath

/-- Model of `tryResolveFile`: strip any recognized extension, then try each
extension appended to the stripped path, then `index.<ext>` inside a
directory named after the stripped path; return the first candidate that
exists on disk, else `null`. -/
def tryResolveFile (fsys : FS) (basePath : String) : Option String :=
  let stripped := stripExt basePath
  match knownExts.find? (fun ext => fsExistsAt fsys (stripped ++ ext)) with
  | some ext => some (stripped ++ ext)
  | none =>
    match knownExts.find? (fun ext => fsExistsAt fsys (pathJoin stripped ("index" ++ ext))) with
    | some ext => some (pathJoin stripped ("index" ++ ext))
    | none => none

/-- Result record of `resolveImport`. -/
structure Resolved where
  path : Option String
  isExternal : Bool
deriving Repr, DecidableEq

/-- Model of `resolveImport(importSpec, fromFile, repoRoot, tsConfig)`.  The
`tsConfig` argument is never read by the source function and is omitted.
A specifier that is not `.`-, `@/`-, `~/`- or `#`-prefixed is external;
`@/` rewrites to `src/`, `~/` to the repository root, relative specifiers
resolve against the directory of `fromFile`; `#`-prefixed specifiers fall
through to the final external return. -/
def resolveImport (fsys : FS) (importSpec fromFile : String) : Resolved :=
  if ¬ startsWithStr importSpec "." ∧ ¬ startsWithStr importSpec "@/" ∧
     ¬ startsWithStr importSpec "~/" ∧ ¬ startsWithStr importSpec "#" then
    { path := none, isExternal := true }
  else if startsWithStr importSpec "@/" then
    { path := tryResolveFile fsys ("src/" ++ dropStr importSpec 2), isExternal := false }
  else if startsWithStr importSpec "~/" then
    { path := tryResolveFile fsys (dropStr importSpec 2), isExternal := false }
  else if startsWithStr importSpec "." then
    { path := tryResolveFile fsys (normalizePath (pathJoin (dirname fromFile) importSpec)),
      isExternal := false }
  else
    { path := none, isExternal := true }

example :
    resolveImport [("y.ts", "c")] "./y" "x.ts" = { path := some "y.ts", isExternal := false } := by
  decide

example : resolveImport [] "lodash" "x.ts" = { path := none, isExternal := true } := by decide

/-! ## Import-kind classification (`getImportType`)

The source tests two regexes against the file content: a type-only pattern
`import\s+type\s+.*?['"]<spec>['"]` and a dynamic pattern
`import\s*\(\s*['"]<spec>['"]` (the specifier is regex-escaped, hence
literal).  They are embedded as explicit character scanners: `\s` is a
whitespace character, `.` any character except a line terminator, and the
lazy `.*?` under a boolean `test` is an exists-a-split scan. -/

/-- JavaScript `\s` on the ASCII range. -/
def isSpaceChar (c : Char) : Bool :=
  c = ' ' ∨ c = '\t' ∨ c = '\n' ∨ c = '\r' ∨ c.toNat = 11 ∨ c.toNat = 12

/-- The character class `['"]`. -/
def isQuoteChar (c : Char) : Bool :=
  c = '"' ∨ c.toNat = 39

/-- JavaScript `.` (any char except a line terminator). -/
def notNewline (c : Char) : Bool :=
  ¬ (c = '\n' ∨ c = '\r')

/-- Greedily consume `\s*`. -/
def eatSpaces0 : List Char → List Char
  | [] => []
  | c :: rest => if isSpaceChar c then eatSpaces0 rest else c :: rest

/-- Consume `\s+` (at least one whitespace character). -/
def eatSpaces1 (cs : List Char) : Option (List Char) :=
  match cs with
  | [] => none
  | c :: rest => if isSpaceChar c then some (eatSpaces0 rest) else none

/-- Match `['"]spec['"]` at the current position. -/
def quotedSpecAt (spec : List Char) (cs : List Char) : Bool :=
  match cs with
  | [] => false
  | c :: rest =>
    isQuoteChar c &&
      (match afterLit spec rest with
       | some (d :: _) => isQuoteChar d
       | _ => false)

/-- Match `.*?['"]spec['"]` at the current position: some run of
non-newline characters followed by the quoted specifier. -/
def scanLazyTo (spec : List Char) : List Char → Bool
  | [] => false
  | c :: rest => quotedSpecAt spec (c :: rest) || (notNewline c && scanLazyTo spec rest)

/-- Match the type-only pattern at the current position. -/
def typeOnlyAt (spec : List Char) (cs : List Char) : Bool :=
  match afterLit "import".data cs with
  | none => false
  | some r1 =>
    match eatSpaces1 r1 with
    | none => false
    | some r2 =>
      match afterLit "type".data r2 with
      | none => false
      | some r3 =>
        match eatSpaces1 r3 with
        | none => false
        | some r4 => scanLazyTo spec r4

/-- Match the dynamic pattern at the current position. -/
def dynamicAt (spec : List Char) (cs : List Char) : Bool :=
  match afterLit "import".data cs with
  | none => false
  | some r1 =>
    match afterLit ['('] (eatSpaces0 r1) with
    | none => false
    | some r2 => quotedSpecAt spec (eatSpaces0 r2)

/-- Model of `regex.test`: the pattern matches at some position of the subject. -/
def scanAny (p : List Char → Bool) : List Char → Bool
  | [] => p []
  | c :: rest => p (c :: rest) || scanAny p rest

/-- Edge kind (`DepEdge["type"]`). -/
inductive EdgeKind where
  | static
  | dynamic
  | typeOnly
deriving Repr, DecidableEq

/-- Model of `getImportType(content, importSpec)`: type-only pattern first, then
dynamic, else static. -/
def getImportType (content spec : String) : EdgeKind :=
  if scanAny (typeOnlyAt spec.data) content.data then .typeOnly
  else if scanAny (dynamicAt spec.data) content.data then .dynamic
  else .static

example : getImportType "const x = 1" "./y" = .static := by decide
example : getImportType "import type T from \"./y\"" "./y" = .typeOnly := by decide
example : getImportType "const m = import(\"./y\")" "./y" = .dynamic := by decide

/-! ## File-type inference -/

/-- Substring test. -/
def hasSubstr (s pat : String) : Bool :=
  scanAny (fun cs => (afterLit pat.data cs).isSome) s.data

/-- Lower-case a string (for the case-insensitive regexes). -/
def lowerStr (s : String) : String :=
  ⟨s.data.map Char.toLower⟩

/-- Case-insensitive substring test (the pattern is given lower-case). -/
def hasSubstrCI (s pat : String) : Bool :=
  hasSubstr (lowerStr s) pat

/-- Model of `relativePath.match(/\/use[A-Z]/)`. -/
def hasUseUpper (s : String) : Bool :=
  scanAny (fun cs =>
    match afterLit "/use".data cs with
    | some (c :: _) => decide ('A' ≤ c) && decide (c ≤ 'Z')
    | _ => false) s.data

/-- Model of `inferFileType` of dep-graph.ts, used for nodes without an index entry
in seeded traversal. -/
def inferFileType (relativePath : String) : String :=
  if startsWithStr relativePath "convex/" then "schema"
  else if hasSubstr relativePath "/page." then "page"
  else if hasSubstr relativePath "/layout." then "layout"
  else if hasSubstr relativePath "/loading." then "loading"
  else if hasSubstr relativePath "/error." then "error"
  else if hasSubstr relativePath "/route." then "route"
  else if hasSubstr relativePath "middleware." then "middleware"
  else if hasSubstrCI relativePath "/hook/" ∨ hasSubstrCI relativePath "/hooks/" ∨
          hasUseUpper relativePath then "hook"
  else if hasSubstrCI relativePath "/lib/" ∨ hasSubstrCI relativePath "/util/" ∨
          hasSubstrCI relativePath "/utils/" then "lib"
  else if hasSubstrCI relativePath "/type/" ∨ hasSubstrCI relativePath "/types/" then "type"
  else if hasSubstrCI relativePath "/server/" ∨ hasSubstrCI relativePath "/api/" then "api"
  else "component"

/-- Model of `inferFileType` of slicer.ts: identical but without the server/api
clause. -/
def inferFileTypeSlice (relativePath : String) : String :=
  if startsWithStr relativePath "convex/" then "schema"
  else if hasSubstr relativePath "/page." then "page"
  else if hasSubstr relativePath "/layout." then "layout"
  else if hasSubstr relativePath "/loading." then "loading"
  else if hasSubstr relativePath "/error." then "error"
  else if hasSubstr relativePath "/route." then "route"
  else if hasSubstr relativePath "middleware." then "middleware"
  else if hasSubstrCI relativePath "/hook/" ∨ hasSubstrCI relativePath "/hooks/" ∨
          hasUseUpper relativePath then "hook"
  else if hasSubstrCI relativePath "/lib/" ∨ hasSubstrCI relativePath "/util/" ∨
          hasSubstrCI relativePath "/utils/" then "lib"
  else if hasSubstrCI relativePath "/type/" ∨ hasSubstrCI relativePath "/types/" then "type"
  else "component"

/-! ## Graph data model (`types/index.ts`) -/

/-- Model of `DepNode`: `isCircular?` and `depth?` are optional in the source;
an absent `isCircular` is falsy and is modelled as `false`, an absent
`depth` (full-repository mode) as `none`. -/
structure DepNode where
  id : String
  path : String
  type : String
  isExternal : Bool
  isCircular : Bool := false
  depth : Option Nat := none
deriving Repr, DecidableEq

/-- Model of `DepEdge` (`from`/`to` are renamed `fromId`/`toId`; `from` is reserved). -/
structure DepEdge where
  fromId : String
  toId : String
  kind : EdgeKind
deriving Repr, DecidableEq

structure MaxDeps where
  file : String
  count : Nat
deriving Repr, DecidableEq

structure DepStats where
  totalNodes : Nat
  totalEdges : Nat
  externalDeps : Nat
  circularDeps : Nat
  avgDepsPerFile : Rat
  maxDeps : MaxDeps
deriving Repr, DecidableEq

structure DepGraph where
  version : String
  generatedAt : String
  gitCommit : Option String
  repoRoot : String
  nodes : List DepNode
  edges : List DepEdge
  cycles : List (List String)
  stats : DepStats
deriving Repr, DecidableEq

/-- Project the ids of a node list. -/
def nodeIds (ns : List DepNode) : List String := ns.map DepNode.id

/-! ## Seeded breadth-first graph builder (`buildDepGraphFromSeeds`) -/

/-- The loop body `if (isExternal || !resolvedPath) continue` condensed:
the resolved internal target of a specifier, if any. -/
def resolveInternal (fsys : FS) (p spec : String) : Option String :=
  let r := resolveImport fsys spec p
  if r.isExternal then none else r.path

/-- The resolved internal imports of a path (`resolvedImports`). -/
def adj (fsys : FS) (index : RepoIndex) (p : String) : List String :=
  (importsOf index p).filterMap (resolveInternal fsys p)

/-- Mutable state of the BFS traversal. -/
structure BState where
  queue : List (String × Nat)
  visited : List String
  nodes : List DepNode
  edges : List DepEdge
  edgeMap : List (String × List String)
deriving Repr

/-- The node record created for a finalized path (`nodes.push({...})`). -/
def nodeOf (index : RepoIndex) (p : String) (d : Nat) : DepNode :=
  { id := p, path := p,
    type := match lookupFile index p with | some f => f.type | none => inferFileType p,
    isExternal := false, isCircular := false, depth := some d }

/-- The edges recorded while finalizing `p`: one per resolved internal
import, in import order, typed against the file content. -/
def newEdgesOf (fsys : FS) (index : RepoIndex) (p : String) : List DepEdge :=
  let content := (readFileAt fsys p).getD ""
  (importsOf index p).filterMap (fun spec =>
    (resolveInternal fsys p spec).map (fun r =>
      { fromId := p, toId := r, kind := getImportType content spec }))

/-- The queue entries pushed while finalizing `p` at depth `d`: the
resolved targets not yet visited, at depth `d + 1`. -/
def pushesOf (fsys : FS) (index : RepoIndex) (visited' : List String) (p : String) (d : Nat) :
    List (String × Nat) :=
  ((adj fsys index p).filter (fun q => decide (q ∉ visited'))).map (fun q => (q, d + 1))

/-- Finalize a dequeued unvisited path `p` at depth `d`: mark visited,
append its node, record one edge per resolved internal import, and enqueue
the resolved targets not yet visited at depth `d + 1`. -/
def stepVisit (fsys : FS) (index : RepoIndex) (s : BState) (p : String) (d : Nat)
    (rest : List (String × Nat)) : BState :=
  let visited' := p :: s.visited
  { queue := rest ++ pushesOf fsys index visited' p d
    visited := visited'
    nodes := s.nodes ++ [nodeOf index p d]
    edges := s.edges ++ newEdgesOf fsys index p
    edgeMap := s.edgeMap ++ [(p, adj fsys index p)] }

/-- The `while (queue.length > 0)` loop, fuelled.  `bfsFuel` below is a
proven-sufficient fuel: the loop always drains its queue within it. -/
def bfsLoop (fsys : FS) (index : RepoIndex) (maxDepth : Nat) : Nat → BState → BState
  | 0, s => s
  | fuel + 1, s =>
    match s.queue with
    | [] => s
    | (p, d) :: rest =>
      if p ∈ s.visited then bfsLoop fsys index maxDepth fuel { s with queue := rest }
      else if maxDepth < d then bfsLoop fsys index maxDepth fuel { s with queue := rest }
      else bfsLoop fsys index maxDepth fuel (stepVisit fsys index s p d rest)

/-- Sufficient fuel: every dequeue consumes either an initial seed entry or
an entry pushed from the import list of a newly visited indexed file. -/
def bfsFuel (index : RepoIndex) (seeds : List String) : Nat :=
  seeds.length + (index.map (fun f => f.imports.length)).sum

/-- The state after the BFS loop has run to completion (the fuel is proven
sufficient below: the final queue is always empty). -/
def finState (fsys : FS) (index : RepoIndex) (seeds : List String) (maxDepth : Nat) : BState :=
  bfsLoop fsys index maxDepth (bfsFuel index seeds)
    { queue := seeds.map (fun p => (p, 0)), visited := [], nodes := [], edges := [],
      edgeMap := [] }

/-- The circularity-flagging pass
(`if (cycleMembers.has(node.id)) node.isCircular = true`). -/
def flagCirc (members : List String) (n : DepNode) : DepNode :=
  if n.id ∈ members then { n with isCircular := true } else n

/-! ## Cycle detection (`detectCycles`) -/

/-- DFS state: the global visited set, the current path stack (the source
also keeps a `recursionStack` set, which always holds exactly the elements
of `currentPath`; membership is modelled on the path), and the emitted
cycles. -/
structure DfsState where
  visited : List String
  path : List String
  cycles : List (List String)
deriving Repr

/-- Model of `edges.get(node) || []` for the adjacency map (keys are unique;
`Map.set` semantics are last-write-wins). -/
def lookupEdges (g : List (String × List String)) (p : String) : List String :=
  (g.foldl (fun acc kv => if kv.1 = p then some kv.2 else acc) none).getD []

/-- The recursive `dfs(node)`: mark visited, push on the path, fold over
neighbors (recursing into unvisited ones, emitting
`currentPath.slice(currentPath.indexOf(neighbor))` when a neighbor is on
the current path), then pop.  Fuel bounds the recursion depth; `dfsFuel`
below exceeds any possible path length. -/
def dfsNode (g : List (String × List String)) : Nat → DfsState → String → DfsState
  | 0, st, _ => st
  | fuel + 1, st, node =>
    let st1 : DfsState :=
      { visited := node :: st.visited, path := st.path ++ [node], cycles := st.cycles }
    let st2 := (lookupEdges g node).foldl (fun st' nbr =>
        if nbr ∈ st'.visited then
          if nbr ∈ st'.path then
            { st' with cycles := st'.cycles ++ [st'.path.drop (st'.path.indexOf nbr)] }
          else st'
        else dfsNode g fuel st' nbr) st1
    { st2 with path := st2.path.dropLast }

/-- Fuel exceeding the number of distinct reachable nodes. -/
def dfsFuel (g : List (String × List String)) : Nat :=
  (g.map (fun kv => kv.2.length + 1)).sum + 1

/-- Model of `detectCycles(edges)`: DFS from every not-yet-visited key, in key
insertion order. -/
def detectCycles (g : List (String × List String)) : List (List String) :=
  let fin := g.foldl
    (fun st kv => if kv.1 ∈ st.visited then st else dfsNode g (dfsFuel g) st kv.1)
    { visited := [], path := [], cycles := [] }
  fin.cycles

/-! ## Statistics -/

/-- Model of `depCounts.set(k, (depCounts.get(k) || 0) + 1)` preserving Map
insertion order. -/
def bumpCount (l : List (String × Nat)) (k : String) : List (String × Nat) :=
  match l with
  | [] => [(k, 1)]
  | (a, n) :: rest => if a = k then (a, n + 1) :: rest else (a, n) :: bumpCount rest k

def depCountsOf (edges : List DepEdge) : List (String × Nat) :=
  edges.foldl (fun m e => bumpCount m e.fromId) []

/-- The `maxDeps` fold: strictly greater counts win, iteration in
insertion order. -/
def maxDepsOf (counts : List (String × Nat)) : MaxDeps :=
  counts.foldl (fun md kv => if md.count < kv.2 then { file := kv.1, count := kv.2 } else md)
    { file := "", count := 0 }

/-- Model of `nodes.length > 0 ? edges.length / nodes.length : 0` (exact rational in
place of the IEEE double). -/
def avgOf (e n : Nat) : Rat :=
  if 0 < n then (e : Rat) / (n : Rat) else 0

/-- Model of `buildDepGraphFromSeeds(seeds, options)`: BFS from the seeds bounded by
`maxDepth`, cycle detection, circularity flagging, statistics.  The seeded
builder reports `externalDeps: 0` (it does not track external packages). -/
def buildDepGraphFromSeeds (fsys : FS) (index : RepoIndex) (seeds : List String)
    (maxDepth : Nat) (now : String) (gitCommit : Option String) (repoRoot : String) : DepGraph :=
  let fin := finState fsys index seeds maxDepth
  let cycles := detectCycles fin.edgeMap
  let members := cycles.flatten
  let nodes := fin.nodes.map (flagCirc members)
  { version := "1.0.0", generatedAt := now, gitCommit := gitCommit, repoRoot := repoRoot,
    nodes := nodes, edges := fin.edges, cycles := cycles,
    stats := { totalNodes := nodes.length, totalEdges := fin.edges.length,
               externalDeps := 0, circularDeps := cycles.length,
               avgDepsPerFile := avgOf fin.edges.length nodes.length,
               maxDeps := maxDepsOf (depCountsOf fin.edges) } }

/-! ## Full-repository graph builder (`buildDepGraph`) -/

/-- Model of `Set.add` preserving insertion order. -/
def insertNew (l : List String) (x : String) : List String :=
  if x ∈ l then l else l ++ [x]

/-- External package name: first two `/`-segments for scoped packages,
first segment otherwise. -/
def pkgNameOf (spec : String) : String :=
  if startsWithStr spec "@" then joinSlash ((splitSlash spec).take 2)
  else ((splitSlash spec).headD "")

structure FullAcc where
  nodes : List DepNode
  edges : List DepEdge
  edgeMap : List (String × List String)
  externalDeps : List String
deriving Repr

/-- One iteration of the full-mode per-import loop: externals are
aggregated by package name, resolved internal specifiers record an edge,
resolution misses are skipped.  The accumulator is
`(resolvedImports, edges, externalDeps)`. -/
def fullImportStep (fsys : FS) (f : FileRec) (content : String)
    (r : List String × List DepEdge × List String) (spec : String) :
    List String × List DepEdge × List String :=
  let rr := resolveImport fsys spec f.relativePath
  if rr.isExternal then (r.1, r.2.1, insertNew r.2.2 (pkgNameOf spec))
  else
    match rr.path with
    | some rp =>
      (r.1 ++ [rp],
       r.2.1 ++ [{ fromId := f.relativePath, toId := rp, kind := getImportType content spec }],
       r.2.2)
    | none => r

/-- Process one indexed file in full-repository mode: one node per file,
one edge per resolved internal specifier, externals aggregated by package
name. -/
def fullVisit (fsys : FS) (acc : FullAcc) (f : FileRec) : FullAcc :=
  let node : DepNode :=
    { id := f.relativePath, path := f.relativePath, type := f.type, isExternal := false }
  let content := (readFileAt fsys f.relativePath).getD ""
  let res := f.imports.foldl (fullImportStep fsys f content) ([], [], acc.externalDeps)
  { nodes := acc.nodes ++ [node], edges := acc.edges ++ res.2.1,
    edgeMap := acc.edgeMap ++ [(f.relativePath, res.1)], externalDeps := res.2.2 }

/-- The accumulated state after iterating every indexed file. -/
def fullState (fsys : FS) (index : RepoIndex) : FullAcc :=
  index.foldl (fullVisit fsys) { nodes := [], edges := [], edgeMap := [], externalDeps := [] }

/-- Model of `buildDepGraph(options)`: every indexed file is a node, reachability is
irrelevant; externals are aggregated into a package-name set for stats. -/
def buildDepGraph (fsys : FS) (index : RepoIndex) (now : String)
    (gitCommit : Option String) (repoRoot : String) : DepGraph :=
  let fin := fullState fsys index
  let cycles := detectCycles fin.edgeMap
  let members := cycles.flatten
  let nodes := fin.nodes.map (flagCirc members)
  { version := "1.0.0", generatedAt := now, gitCommit := gitCommit, repoRoot := repoRoot,
    nodes := nodes, edges := fin.edges, cycles := cycles,
    stats := { totalNodes := nodes.length, totalEdges := fin.edges.length,
               externalDeps := fin.externalDeps.length, circularDeps := cycles.length,
               avgDepsPerFile := avgOf fin.edges.length nodes.length,
               maxDeps := maxDepsOf (depCountsOf fin.edges) } }

/-! ## Glob matching (`matchesPattern` in utils.ts)

The source compiles a glob to a regex string by sequential replacement:
`**` → placeholder, `*` → `[^/]*`, placeholder → `.*`, and finally `.` →
`\.`.  Because the dot-escaping replacement runs last, the `.` of the `.*`
fragment produced for `**` is escaped too, so a `**` compiles to `\.*`,
which matches a run of literal `.` characters.  The compiled regex is
modelled as a token list with exactly that semantics: `dstar` (from `**`)
matches a run of `.` characters, `star` (from `*`) a run of non-`/`
characters, and every other pattern character matches itself (this covers
every pattern whose remaining characters carry no regex meaning; literal
dots are escaped by the same final replacement).  The regex is anchored
(`"^" + ... + "$"`). -/

inductive GTok where
  | dstar
  | star
  | lit (c : Char)
deriving Repr, DecidableEq

/-- Tokenize a glob pattern, consuming `**` before `*` exactly as the
left-to-right global replacements do. -/
def globTokens : List Char → List GTok
  | [] => []
  | c :: rest =>
    if c = '*' then
      match rest with
      | d :: rest2 => if d = '*' then .dstar :: globTokens rest2 else .star :: globTokens (d :: rest2)
      | [] => [.star]
    else .lit c :: globTokens rest

/-- All suffixes obtained by consuming a (possibly empty) run of
characters satisfying `p` — the candidate continuations of a starred
regex fragment. -/
def pRuns (p : Char → Bool) : List Char → List (List Char)
  | [] => [[]]
  | d :: ds => (d :: ds) :: (if p d then pRuns p ds else [])

/-- Anchored matching of a compiled token list against a subject. -/
def gmatch : List GTok → List Char → Bool
  | [], ds => ds.isEmpty
  | .lit c :: ts, ds =>
    (match ds with
     | [] => false
     | d :: ds' => (c == d) && gmatch ts ds')
  | .star :: ts, ds => (pRuns (fun c => c != '/') ds).any (fun s => gmatch ts s)
  | .dstar :: ts, ds => (pRuns (fun c => c == '.') ds).any (fun s => gmatch ts s)

/-- Model of `matchesPattern(filePath, pattern)`. -/
def matchesPattern (filePath pattern : String) : Bool :=
  gmatch (globTokens pattern.data) filePath.data

/-- Model of `matchesPatterns(filePath, patterns)`. -/
def matchesPatterns (filePath : String) (patterns : List String) : Bool :=
  patterns.any (fun p => matchesPattern filePath p)

example : matchesPattern "src/a.ts" "src/*" = true := by decide
example : matchesPattern "src/a/b.ts" "src/**" = false := by decide
example : matchesPattern "src/..." "src/**" = true := by decide

/-! ## Budgeted slicer (`sliceFeature` in slicer.ts) -/

/-- Model of `estimateTokens(text) = Math.ceil(text.length / 3.5)`, i.e.
`⌈2·n/7⌉` exactly. -/
def estimateTokens (text : String) : Nat :=
  (2 * strLen text + 6) / 7

/-- Code-unit lexicographic order, modelling `a.localeCompare(b) ≤ 0` for
the ASCII paths handled here. -/
def lexLE : List Char → List Char → Bool
  | [], _ => true
  | _ :: _, [] => false
  | a :: as, b :: bs => decide (a.toNat < b.toNat) || ((a == b) && lexLE as bs)

def strLE (a b : String) : Bool := lexLE a.data b.data

/-- The slicer comparator: depth ascending, then path ascending
(`(a.depth || 0) - (b.depth || 0)`, ties by `localeCompare`). -/
def nodeLE (a b : DepNode) : Bool :=
  decide (a.depth.getD 0 < b.depth.getD 0) ||
    ((a.depth.getD 0 == b.depth.getD 0) && strLE a.id b.id)

def insertNodeBy (n : DepNode) : List DepNode → List DepNode
  | [] => [n]
  | m :: ms => if nodeLE n m then n :: m :: ms else m :: insertNodeBy n ms

/-- Stable sort of the graph nodes by the slicer comparator. -/
def sortNodes : List DepNode → List DepNode
  | [] => []
  | n :: ns => insertNodeBy n (sortNodes ns)

structure SliceFile where
  relativePath : String
  type : String
  sizeBytes : Nat
  depth : Nat
  reason : String
deriving Repr, DecidableEq

structure ExcludedFile where
  file : String
  reason : String
deriving Repr, DecidableEq

structure SliceSummary where
  totalFiles : Nat
  totalBytes : Nat
  totalTokens : Nat
  maxDepth : Nat
  byType : List (String × Nat)
deriving Repr, DecidableEq

/-- Model of `ContextSlice` restricted to the engine-produced fields; the optional
model/token-budget metadata block (a function of the same parameters and
totals) is not modelled. -/
structure ContextSlice where
  version : String
  generatedAt : String
  gitCommit : Option String
  type : String
  name : String
  seedFiles : List String
  files : List SliceFile
  excluded : List ExcludedFile
  summary : SliceSummary
deriving Repr, DecidableEq

structure SliceAcc where
  files : List SliceFile
  excluded : List ExcludedFile
  totalBytes : Nat
  totalTokens : Nat
deriving Repr, DecidableEq

/-- One iteration of the slicing loop of `sliceFeature`: exclusion
patterns, stat/read (failure → reason `external`), the per-file size cap
(reason `size`), then the budget check — reason `token_budget` when a
token budget is active, reason `size` when the byte ceiling would be
exceeded — and finally inclusion with its reason, adding the cost to both
running totals. -/
def sliceStep (fsys : FS) (exclude : List String) (maxFileBytes : Nat)
    (tokenBudget : Option Nat) (maxBytes : Nat) (seeds : List String)
    (acc : SliceAcc) (node : DepNode) : SliceAcc :=
  let relativePath := node.id
  if matchesPatterns relativePath exclude then
    { acc with excluded := acc.excluded ++ [{ file := relativePath, reason := "pattern" }] }
  else
    match readFileAt fsys relativePath with
    | none =>
      { acc with excluded := acc.excluded ++ [{ file := relativePath, reason := "external" }] }
    | some content =>
      let sizeBytes := strLen content
      if maxFileBytes < sizeBytes then
        { acc with excluded := acc.excluded ++ [{ file := relativePath, reason := "size" }] }
      else
        let fileTokens := estimateTokens content
        let budgetHit : Option ExcludedFile :=
          match tokenBudget with
          | some tb =>
            if tb < acc.totalTokens + fileTokens then
              some { file := relativePath, reason := "token_budget" }
            else none
          | none =>
            if maxBytes < acc.totalBytes + sizeBytes then
              some { file := relativePath, reason := "size" }
            else none
        match budgetHit with
        | some ex => { acc with excluded := acc.excluded ++ [ex] }
        | none =>
          let reason :=
            if relativePath ∈ seeds then "seed"
            else if startsWithStr relativePath "convex/" then "schema"
            else "import"
          let sf : SliceFile :=
            { relativePath := relativePath,
              type := if node.type = "" then inferFileTypeSlice relativePath else node.type,
              sizeBytes := sizeBytes, depth := node.depth.getD 0, reason := reason }
          { files := acc.files ++ [sf],
            excluded := acc.excluded,
            totalBytes := acc.totalBytes + sizeBytes,
            totalTokens := acc.totalTokens + fileTokens }

/-- Model of `byType` counts in file order. -/
def byTypeOf (files : List SliceFile) : List (String × Nat) :=
  files.foldl (fun m f => bumpCount m f.type) []

/-- Model of `Math.max(...files.map(f => f.depth), 0)`. -/
def maxDepthOf (files : List SliceFile) : Nat :=
  files.foldl (fun m f => max m f.depth) 0

/-- Model of `sliceFeature(seeds, name, options)`: seeded bounded graph, nodes
sorted by `(depth, path)`, then the greedy budgeted loop.  Exactly one
budget dimension is active: `tokenBudget = some _` models a named model
profile or explicit token budget, `none` the byte ceiling `maxBytes`. -/
def sliceFeature (fsys : FS) (index : RepoIndex) (seeds : List String) (name : String)
    (maxFileBytes : Nat) (tokenBudget : Option Nat) (maxBytes : Nat)
    (exclude : List String) (depth : Nat) (now : String) (gitCommit : Option String)
    (root : String) : ContextSlice :=
  let depGraph := buildDepGraphFromSeeds fsys index seeds depth now gitCommit root
  let sorted := sortNodes depGraph.nodes
  let acc := sorted.foldl (sliceStep fsys exclude maxFileBytes tokenBudget maxBytes seeds)
    { files := [], excluded := [], totalBytes := 0, totalTokens := 0 }
  { version := "1.0.0", generatedAt := now, gitCommit := gitCommit, type := "feature",
    name := name, seedFiles := seeds, files := acc.files, excluded := acc.excluded,
    summary := { totalFiles := acc.files.length, totalBytes := acc.totalBytes,
                 totalTokens := acc.totalTokens, maxDepth := maxDepthOf acc.files,
                 byType := byTypeOf acc.files } }

/-! ## Concrete fixtures -/

/-- Depth-bound fixture: one seed importing one internal file. -/
def fsBound : FS := [("a.ts", "x"), ("b.ts", "y")]

def idxBound : RepoIndex := [⟨"a.ts", "lib", ["./b"]⟩, ⟨"b.ts", "lib", []⟩]

/-- The depth-bound fixture built with `maxDepth = 0`. -/
def gBound : DepGraph := buildDepGraphFromSeeds fsBound idxBound ["a.ts"] 0 "t0" none "/repo"

/-- A seed path that exists neither on disk nor in the index. -/
def gGhost : DepGraph := buildDepGraphFromSeeds [] [] ["ghost.ts"] 5 "t0" none "/repo"

/-- Cycle fixture: `a` imports `b`, `b` imports `c`, `c` imports `a`. -/
def fsCyc : FS := [("a.ts", ""), ("b.ts", ""), ("c.ts", "")]

def idxCyc : RepoIndex :=
  [⟨"a.ts", "lib", ["./b"]⟩, ⟨"b.ts", "lib", ["./c"]⟩, ⟨"c.ts", "lib", ["./a"]⟩]

def gCyc : DepGraph := buildDepGraphFromSeeds fsCyc idxCyc ["a.ts"] 5 "t0" none "/repo"

/-- External-mix fixture: seed `x` imports external package `P` and
internal file `y`. -/
def fsMix : FS := [("x.ts", "ix"), ("y.ts", "iy")]

def idxMix : RepoIndex := [⟨"x.ts", "page", ["P", "./y"]⟩, ⟨"y.ts", "lib", []⟩]

def gMix : DepGraph := buildDepGraphFromSeeds fsMix idxMix ["x.ts"] 10 "t0" none "/repo"

/-- Budget fixture: three seed files of sizes 40, 70 and 30 bytes whose
ids sort in that order. -/
def fsBudget : FS :=
  [("ay.ts", ⟨List.replicate 40 'a'⟩), ("bz.ts", ⟨List.replicate 70 'b'⟩),
   ("cw.ts", ⟨List.replicate 30 'c'⟩)]

def idxBudget : RepoIndex :=
  [⟨"ay.ts", "lib", []⟩, ⟨"bz.ts", "lib", []⟩, ⟨"cw.ts", "lib", []⟩]

/-- Byte-budget slice of the budget fixture: ceiling 100 bytes. -/
def slByte : ContextSlice :=
  sliceFeature fsBudget idxBudget ["ay.ts", "bz.ts", "cw.ts"] "f" 409600 none 100 [] 5
    "t0" none "/repo"

/-- Token-budget slice of the budget fixture: ceiling 21 tokens
(the files estimate to 12, 20 and 9 tokens). -/
def slToken : ContextSlice :=
  sliceFeature fsBudget idxBudget ["ay.ts", "bz.ts", "cw.ts"] "f" 409600 (some 21) 8388608 [] 5
    "t0" none "/repo"

/-! ## Specification-side definitions for the proofs -/

/-- The depth recorded on a node (`node.depth || 0`). -/
def ndepth (n : DepNode) : Nat := n.depth.getD 0

/-- The resolver candidate order as the specification words it: each
recognized source extension appended to the stripped path, in priority
order, then an `index.<ext>` file inside a directory named after the
stripped path. -/
def specCandidates (stripped : String) : List String :=
  knownExts.map (fun ext => stripped ++ ext) ++
    knownExts.map (fun ext => pathJoin stripped ("index" ++ ext))

/-- A reported cycle is closed: it is nonempty, it ends at the node whose
neighbor exploration emitted it, and it starts at the re-entered neighbor,
which that final node has an edge to. -/
def CycleClosed (g : List (String × List String)) (c : List String) : Prop :=
  c ≠ [] ∧ ∃ node, c.getLast? = some node ∧ ∃ nbr, c.head? = some nbr ∧ nbr ∈ lookupEdges g node

/-- Erase the run timestamp of a graph record. -/
def eraseGraphTime (g : DepGraph) : DepGraph := { g with generatedAt := "" }

/-- Erase the run timestamp of a slice record. -/
def eraseSliceTime (s : ContextSlice) : ContextSlice := { s with generatedAt := "" }

/-- Model of `Reach k p`: `p` is reachable from the seed set in at most `k` hops of
the resolved-internal-import relation.  The BFS shortest-hop distance of
`p` is the least such `k`. -/
def Reach (fsys : FS) (index : RepoIndex) (seeds : List String) : Nat → String → Prop
  | 0, p => p ∈ seeds
  | k + 1, p =>
    Reach fsys index seeds k p ∨ ∃ q, Reach fsys index seeds k q ∧ p ∈ adj fsys index q

/-- The inductive invariant of the seeded BFS loop.  `maxD` is the depth
bound; `nodeIds` is the set of finalized paths. -/
structure BfsInv (fsys : FS) (index : RepoIndex) (seeds : List String) (maxD : Nat)
    (s : BState) : Prop where
  visEq : ∀ q : String, q ∈ s.visited ↔ q ∈ nodeIds s.nodes
  flagsF : ∀ n ∈ s.nodes, n.isCircular = false
  depthSome : ∀ n ∈ s.nodes, n.depth = some (ndepth n)
  depthLe : ∀ n ∈ s.nodes, ndepth n ≤ maxD
  nodesReach : ∀ n ∈ s.nodes, Reach fsys index seeds (ndepth n) n.id
  minimal : ∀ n ∈ s.nodes, ∀ j, Reach fsys index seeds j n.id → ndepth n ≤ j
  queueReach : ∀ pe ∈ s.queue, Reach fsys index seeds pe.2 pe.1
  sortedQ : List.Pairwise (fun a b => a ≤ b) (s.queue.map Prod.snd)
  spreadQ : ∀ pe ∈ s.queue, ∀ h ∈ s.queue.head?, pe.2 ≤ h.2 + 1
  ladder : ∀ n ∈ s.nodes, ∀ q ∈ adj fsys index n.id,
    maxD ≤ ndepth n ∨ q ∈ nodeIds s.nodes ∨ ∃ e, (q, e) ∈ s.queue ∧ e ≤ ndepth n + 1
  frontK : ∀ h ∈ s.queue.head?, ∀ q k, k < h.2 → k ≤ maxD →
    Reach fsys index seeds k q → q ∈ nodeIds s.nodes
  frontM : ∀ h ∈ s.queue.head?, ∀ q k, k ≤ h.2 → k ≤ maxD →
    Reach fsys index seeds k q → q ∈ nodeIds s.nodes ∨ (q, k) ∈ s.queue
  edgesP : ∀ e ∈ s.edges,
    (∃ n ∈ s.nodes, n.id = e.fromId) ∧
    (e.toId ∈ nodeIds s.nodes ∨
     (∃ d n, n ∈ s.nodes ∧ n.id = e.fromId ∧ (e.toId, d) ∈ s.queue ∧ d ≤ ndepth n + 1) ∨
     (∃ n ∈ s.nodes, n.id = e.fromId ∧ maxD ≤ ndepth n))
  seedsJ : ∀ a ∈ seeds, a ∈ nodeIds s.nodes ∨ (a, 0) ∈ s.queue
  edgesIdx : ∀ e ∈ s.edges, (lookupFile index e.fromId).isSome

/-- Total import count of the index entries whose path is `p`. -/
def importsTotalAt (index : RepoIndex) (p : String) : Nat :=
  ((index.filter (fun f => decide (f.relativePath = p))).map (fun f => f.imports.length)).sum

/-- Termination potential of the BFS loop: queue length plus the import
counts of the not-yet-visited indexed files. -/
def phi (index : RepoIndex) (s : BState) : Nat :=
  s.queue.length +
    ((index.filter (fun f => decide (f.relativePath ∉ s.visited))).map
      (fun f => f.imports.length)).sum

/-! ## Helper lemmas -/

theorem mem_nodeIds {ns : List DepNode} {q : String} :
    q ∈ nodeIds ns ↔ ∃ n ∈ ns, n.id = q := by
  simp [nodeIds]

theorem nodeIds_append (a b : List DepNode) :
    nodeIds (a ++ b) = nodeIds a ++ nodeIds b := by
  simp [nodeIds]

theorem head_le_of_sorted {l : List (String × Nat)} {h pe : String × Nat}
    (hs : List.Pairwise (fun a b => a ≤ b) (l.map Prod.snd))
    (hh : l.head? = some h) (hm : pe ∈ l) : h.2 ≤ pe.2 := by
  cases l with
  | nil => simp at hh
  | cons x t =>
    simp only [List.head?_cons, Option.some.injEq] at hh
    subst hh
    rcases List.mem_cons.mp hm with rfl | hm
    · exact le_refl _
    · simp only [List.map_cons, List.pairwise_cons] at hs
      exact hs.1 _ (List.mem_map_of_mem _ hm)

theorem mem_pushesOf {fsys : FS} {index : RepoIndex} {visited' : List String}
    {p : String} {d : Nat} {q : String} {e : Nat} :
    (q, e) ∈ pushesOf fsys index visited' p d ↔
      q ∈ adj fsys index p ∧ q ∉ visited' ∧ e = d + 1 := by
  simp only [pushesOf, List.mem_map, List.mem_filter, Prod.mk.injEq, decide_eq_true_eq]
  constructor
  · rintro ⟨a, ⟨ha, hv⟩, rfl, rfl⟩
    exact ⟨ha, hv, rfl⟩
  · rintro ⟨ha, hv, rfl⟩
    exact ⟨q, ⟨ha, hv⟩, rfl, rfl⟩

theorem mem_newEdgesOf {fsys : FS} {index : RepoIndex} {p : String} {e : DepEdge}
    (he : e ∈ newEdgesOf fsys index p) :
    e.fromId = p ∧ e.toId ∈ adj fsys index p := by
  simp only [newEdgesOf, List.mem_filterMap, Option.map_eq_some'] at he
  obtain ⟨spec, hspec, r, hr, rfl⟩ := he
  exact ⟨rfl, List.mem_filterMap.mpr ⟨spec, hspec, hr⟩⟩

theorem newEdgesOf_nil {fsys : FS} {index : RepoIndex} {p : String}
    (h : lookupFile index p = none) : newEdgesOf fsys index p = [] := by
  simp [newEdgesOf, importsOf, h]

theorem reach_mono {fsys : FS} {index : RepoIndex} {seeds : List String} {k j : Nat}
    {p : String} (h : Reach fsys index seeds k p) (hkj : k ≤ j) :
    Reach fsys index seeds j p := by
  induction j, hkj using Nat.le_induction with
  | base => exact h
  | succ j hj ih => exact Or.inl ih

/-! ## Preservation of the BFS invariant -/

theorem bfsInv_skip_visited {fsys : FS} {index : RepoIndex} {seeds : List String}
    {maxD : Nat} {s : BState} {p : String} {d : Nat} {rest : List (String × Nat)}
    (hq : s.queue = (p, d) :: rest)
    (inv : BfsInv fsys index seeds maxD s) (hp : p ∈ s.visited) :
    BfsInv fsys index seeds maxD { s with queue := rest } := by
  have hpid : p ∈ nodeIds s.nodes := (inv.visEq p).mp hp
  have hhead : s.queue.head? = some (p, d) := by rw [hq]; rfl
  have hmemq : ∀ pe, pe ∈ rest → pe ∈ s.queue := by
    intro pe h; rw [hq]; exact List.mem_cons_of_mem _ h
  have hcase : ∀ pe, pe ∈ s.queue → pe = (p, d) ∨ pe ∈ rest := by
    intro pe h; rw [hq] at h; exact List.mem_cons.mp h
  have hrest_sorted : List.Pairwise (fun a b => a ≤ b) (rest.map Prod.snd) := by
    have h := inv.sortedQ; rw [hq] at h
    exact (List.pairwise_cons.mp h).2
  have hd_le : ∀ pe ∈ rest, d ≤ pe.2 := fun pe h =>
    head_le_of_sorted inv.sortedQ hhead (hmemq pe h)
  have hspread_old : ∀ pe ∈ s.queue, pe.2 ≤ d + 1 := fun pe h =>
    inv.spreadQ pe h (p, d) hhead
  refine
    { visEq := inv.visEq
      flagsF := inv.flagsF
      depthSome := inv.depthSome
      depthLe := inv.depthLe
      nodesReach := inv.nodesReach
      minimal := inv.minimal
      queueReach := fun pe h => inv.queueReach pe (hmemq pe h)
      sortedQ := hrest_sorted
      spreadQ := ?_
      ladder := ?_
      frontK := ?_
      frontM := ?_
      edgesP := ?_
      seedsJ := ?_
      edgesIdx := inv.edgesIdx }
  · -- spreadQ
    intro pe hpe h hh
    have h1 : pe.2 ≤ d + 1 := hspread_old pe (hmemq pe hpe)
    have h2 : d ≤ h.2 := hd_le h (List.mem_of_mem_head? hh)
    omega
  · -- ladder
    intro n hn q hadj
    rcases inv.ladder n hn q hadj with h1 | h2 | ⟨e, he, hle⟩
    · exact Or.inl h1
    · exact Or.inr (Or.inl h2)
    · rcases hcase _ he with heq | hmem
      · have : q = p := congrArg Prod.fst heq
        exact Or.inr (Or.inl (this ▸ hpid))
      · exact Or.inr (Or.inr ⟨e, hmem, hle⟩)
  · -- frontK
    intro h hh q k hk hkle hr
    have hhm : h ∈ rest := List.mem_of_mem_head? hh
    have hspr : k ≤ d := by
      have := hspread_old h (hmemq h hhm); omega
    rcases Nat.lt_or_ge k d with hlt | hge
    · exact inv.frontK (p, d) hhead q k hlt hkle hr
    · have hkd : k = d := le_antisymm hspr hge
      rcases inv.frontM (p, d) hhead q k (by omega) hkle hr with hid | hqk
      · exact hid
      · rcases hcase _ hqk with heq | hmem
        · have : q = p := congrArg Prod.fst heq
          exact this ▸ hpid
        · have := head_le_of_sorted hrest_sorted hh hmem
          omega
  · -- frontM
    intro h hh q k hk hkle hr
    have hhm : h ∈ rest := List.mem_of_mem_head? hh
    have hhb : h.2 ≤ d + 1 := hspread_old h (hmemq h hhm)
    have hdh : d ≤ h.2 := hd_le h hhm
    rcases Nat.lt_or_ge k d with hlt | hge
    · exact Or.inl (inv.frontK (p, d) hhead q k hlt hkle hr)
    · rcases Nat.lt_or_ge k (d + 1) with hlt1 | hge1
      · -- k = d
        have hkd : k = d := by omega
        rcases inv.frontM (p, d) hhead q k (by omega) hkle hr with hid | hqk
        · exact Or.inl hid
        · rcases hcase _ hqk with heq | hmem
          · have : q = p := congrArg Prod.fst heq
            exact Or.inl (this ▸ hpid)
          · exact Or.inr hmem
      · -- k = d + 1
        have hkd : k = d + 1 := by omega
        have hdle : d ≤ maxD := by omega
        subst hkd
        rcases hr with hr0 | ⟨u, hu, hadj⟩
        · rcases inv.frontM (p, d) hhead q d le_rfl hdle hr0 with hid | hqk
          · exact Or.inl hid
          · rcases hcase _ hqk with heq | hmem
            · have : q = p := congrArg Prod.fst heq
              exact Or.inl (this ▸ hpid)
            · have := head_le_of_sorted hrest_sorted hh hmem
              omega
        · have huid : u ∈ nodeIds s.nodes := by
            rcases inv.frontM (p, d) hhead u d le_rfl hdle hu with hid | huq
            · exact hid
            · rcases hcase _ huq with heq | hmem
              · have : u = p := congrArg Prod.fst heq
                exact this ▸ hpid
              · have := head_le_of_sorted hrest_sorted hh hmem
                omega
          obtain ⟨nu, hnu, hnuid⟩ := mem_nodeIds.mp huid
          have hmin : ndepth nu ≤ d := inv.minimal nu hnu d (by rw [hnuid]; exact hu)
          rcases inv.ladder nu hnu q (by rw [hnuid]; exact hadj) with hm | hid | ⟨e, he, hle⟩
          · omega
          · exact Or.inl hid
          · rcases hcase _ he with heq | hmem
            · have : q = p := congrArg Prod.fst heq
              exact Or.inl (this ▸ hpid)
            · have h1 := head_le_of_sorted hrest_sorted hh hmem
              have : e = d + 1 := by omega
              exact Or.inr (this ▸ hmem)
  · -- edgesP
    intro e he
    obtain ⟨h1, h2⟩ := inv.edgesP e he
    refine ⟨h1, ?_⟩
    rcases h2 with hid | ⟨d', n, hn, hnid, hentry, hle⟩ | h3
    · exact Or.inl hid
    · rcases hcase _ hentry with heq | hmem
      · have : e.toId = p := congrArg Prod.fst heq
        exact Or.inl (this ▸ hpid)
      · exact Or.inr (Or.inl ⟨d', n, hn, hnid, hmem, hle⟩)
    · exact Or.inr (Or.inr h3)
  · -- seedsJ
    intro a ha
    rcases inv.seedsJ a ha with hid | hmem
    · exact Or.inl hid
    · rcases hcase _ hmem with heq | hmem
      · have : a = p := congrArg Prod.fst heq
        exact Or.inl (this ▸ hpid)
      · exact Or.inr hmem

theorem pairwise_le_of_const {l : List Nat} {x : Nat} (h : ∀ a ∈ l, a = x) :
    List.Pairwise (fun a b => a ≤ b) l := by
  induction l with
  | nil => simp
  | cons a t ih =>
    rw [List.pairwise_cons]
    refine ⟨fun b hb => ?_, ih fun b hb => h b (List.mem_cons_of_mem _ hb)⟩
    rw [h a (List.mem_cons_self _ _), h b (List.mem_cons_of_mem _ hb)]

theorem reach_succ_iff {fsys : FS} {index : RepoIndex} {seeds : List String}
    {k : Nat} {p : String} :
    Reach fsys index seeds (k + 1) p ↔
      Reach fsys index seeds k p ∨ ∃ q, Reach fsys index seeds k q ∧ p ∈ adj fsys index q :=
  Iff.rfl

theorem bfsInv_skip_depth {fsys : FS} {index : RepoIndex} {seeds : List String}
    {maxD : Nat} {s : BState} {p : String} {d : Nat} {rest : List (String × Nat)}
    (hq : s.queue = (p, d) :: rest)
    (inv : BfsInv fsys index seeds maxD s) (hd : maxD < d) :
    BfsInv fsys index seeds maxD { s with queue := rest } := by
  have hhead : s.queue.head? = some (p, d) := by rw [hq]; rfl
  have hmemq : ∀ pe, pe ∈ rest → pe ∈ s.queue := by
    intro pe h; rw [hq]; exact List.mem_cons_of_mem _ h
  have hcase : ∀ pe, pe ∈ s.queue → pe = (p, d) ∨ pe ∈ rest := by
    intro pe h; rw [hq] at h; exact List.mem_cons.mp h
  have hrest_sorted : List.Pairwise (fun a b => a ≤ b) (rest.map Prod.snd) := by
    have h := inv.sortedQ; rw [hq] at h
    exact (List.pairwise_cons.mp h).2
  have hd_le : ∀ pe ∈ rest, d ≤ pe.2 := fun pe h =>
    head_le_of_sorted inv.sortedQ hhead (hmemq pe h)
  have hspread_old : ∀ pe ∈ s.queue, pe.2 ≤ d + 1 := fun pe h =>
    inv.spreadQ pe h (p, d) hhead
  refine
    { visEq := inv.visEq
      flagsF := inv.flagsF
      depthSome := inv.depthSome
      depthLe := inv.depthLe
      nodesReach := inv.nodesReach
      minimal := inv.minimal
      queueReach := fun pe h => inv.queueReach pe (hmemq pe h)
      sortedQ := hrest_sorted
      spreadQ := ?_
      ladder := ?_
      frontK := ?_
      frontM := ?_
      edgesP := ?_
      seedsJ := ?_
      edgesIdx := inv.edgesIdx }
  · intro pe hpe h hh
    have h1 : pe.2 ≤ d + 1 := hspread_old pe (hmemq pe hpe)
    have h2 : d ≤ h.2 := hd_le h (List.mem_of_mem_head? hh)
    omega
  · -- ladder
    intro n hn q hadj
    rcases inv.ladder n hn q hadj with h1 | h2 | ⟨e, he, hle⟩
    · exact Or.inl h1
    · exact Or.inr (Or.inl h2)
    · rcases hcase _ he with heq | hmem
      · have : e = d := congrArg Prod.snd heq
        exact Or.inl (by omega)
      · exact Or.inr (Or.inr ⟨e, hmem, hle⟩)
  · -- frontK
    intro h hh q k hk hkle hr
    exact inv.frontK (p, d) hhead q k (by omega) hkle hr
  · -- frontM
    intro h hh q k hk hkle hr
    exact Or.inl (inv.frontK (p, d) hhead q k (by omega) hkle hr)
  · -- edgesP
    intro e he
    obtain ⟨h1, h2⟩ := inv.edgesP e he
    refine ⟨h1, ?_⟩
    rcases h2 with hid | ⟨d', n, hn, hnid, hentry, hle⟩ | h3
    · exact Or.inl hid
    · rcases hcase _ hentry with heq | hmem
      · have : d' = d := congrArg Prod.snd heq
        exact Or.inr (Or.inr ⟨n, hn, hnid, by omega⟩)
      · exact Or.inr (Or.inl ⟨d', n, hn, hnid, hmem, hle⟩)
    · exact Or.inr (Or.inr h3)
  · -- seedsJ
    intro a ha
    rcases inv.seedsJ a ha with hid | hmem
    · exact Or.inl hid
    · rcases hcase _ hmem with heq | hmem
      · have : (0 : Nat) = d := congrArg Prod.snd heq
        omega
      · exact Or.inr hmem

theorem bfsInv_visit {fsys : FS} {index : RepoIndex} {seeds : List String}
    {maxD : Nat} {s : BState} {p : String} {d : Nat} {rest : List (String × Nat)}
    (hq : s.queue = (p, d) :: rest)
    (inv : BfsInv fsys index seeds maxD s) (hp : p ∉ s.visited) (hd : d ≤ maxD) :
    BfsInv fsys index seeds maxD (stepVisit fsys index s p d rest) := by
  have hhead : s.queue.head? = some (p, d) := by rw [hq]; rfl
  have hfront : ((p, d) : String × Nat) ∈ s.queue := by
    rw [hq]; exact List.mem_cons_self _ _
  have hmemq : ∀ pe, pe ∈ rest → pe ∈ s.queue := by
    intro pe h; rw [hq]; exact List.mem_cons_of_mem _ h
  have hcase : ∀ pe, pe ∈ s.queue → pe = (p, d) ∨ pe ∈ rest := by
    intro pe h; rw [hq] at h; exact List.mem_cons.mp h
  have hrest_sorted : List.Pairwise (fun a b => a ≤ b) (rest.map Prod.snd) := by
    have h := inv.sortedQ; rw [hq] at h
    exact (List.pairwise_cons.mp h).2
  have hd_le : ∀ pe ∈ rest, d ≤ pe.2 := fun pe h =>
    head_le_of_sorted inv.sortedQ hhead (hmemq pe h)
  have hspread_old : ∀ pe ∈ s.queue, pe.2 ≤ d + 1 := fun pe h =>
    inv.spreadQ pe h (p, d) hhead
  have hreachp : Reach fsys index seeds d p := inv.queueReach (p, d) hfront
  have hpnotid : p ∉ nodeIds s.nodes := fun h => hp ((inv.visEq p).mpr h)
  have hsq : (stepVisit fsys index s p d rest).queue =
      rest ++ pushesOf fsys index (p :: s.visited) p d := rfl
  have hsv : (stepVisit fsys index s p d rest).visited = p :: s.visited := rfl
  have hsn : (stepVisit fsys index s p d rest).nodes = s.nodes ++ [nodeOf index p d] := rfl
  have hse : (stepVisit fsys index s p d rest).edges = s.edges ++ newEdgesOf fsys index p := rfl
  have hnpid : (nodeOf index p d).id = p := rfl
  have hnpd : ndepth (nodeOf index p d) = d := rfl
  have hmem_ids : ∀ q : String, q ∈ nodeIds (s.nodes ++ [nodeOf index p d]) ↔
      q ∈ nodeIds s.nodes ∨ q = p := by
    intro q; rw [nodeIds_append]; simp [nodeIds, nodeOf]
  have hmem_nodes : ∀ n : DepNode, n ∈ s.nodes ++ [nodeOf index p d] ↔
      n ∈ s.nodes ∨ n = nodeOf index p d := by
    intro n; simp
  have hpush_mem : ∀ (q : String) (e : Nat), (q, e) ∈ pushesOf fsys index (p :: s.visited) p d ↔
      q ∈ adj fsys index p ∧ q ∉ p :: s.visited ∧ e = d + 1 := fun q e => mem_pushesOf
  have hvis_ids : ∀ q : String, q ∈ p :: s.visited → q ∈ nodeIds (s.nodes ++ [nodeOf index p d]) := by
    intro q hv
    rcases List.mem_cons.mp hv with rfl | hv
    · exact (hmem_ids q).mpr (Or.inr rfl)
    · exact (hmem_ids q).mpr (Or.inl ((inv.visEq q).mp hv))
  have hQcase : ∀ pe, pe ∈ rest ++ pushesOf fsys index (p :: s.visited) p d →
      pe ∈ rest ∨ pe ∈ pushesOf fsys index (p :: s.visited) p d := by
    intro pe h; exact List.mem_append.mp h
  have hpush_snd : ∀ pe ∈ pushesOf fsys index (p :: s.visited) p d, pe.2 = d + 1 := by
    intro pe h
    rcases pe with ⟨q, e⟩
    exact ((hpush_mem q e).mp h).2.2
  have hQle : ∀ pe ∈ rest ++ pushesOf fsys index (p :: s.visited) p d, pe.2 ≤ d + 1 := by
    intro pe h
    rcases hQcase pe h with h1 | h2
    · exact hspread_old pe (hmemq pe h1)
    · exact le_of_eq (hpush_snd pe h2)
  have hsorted' : List.Pairwise (fun a b => a ≤ b)
      ((rest ++ pushesOf fsys index (p :: s.visited) p d).map Prod.snd) := by
    rw [List.map_append, List.pairwise_append]
    refine ⟨hrest_sorted, ?_, ?_⟩
    · refine pairwise_le_of_const (x := d + 1) ?_
      intro a ha
      obtain ⟨pe, hpe, rfl⟩ := List.mem_map.mp ha
      exact hpush_snd pe hpe
    · intro a ha b hb
      obtain ⟨pe, hpe, rfl⟩ := List.mem_map.mp ha
      obtain ⟨qe, hqe, rfl⟩ := List.mem_map.mp hb
      have h1 := hspread_old pe (hmemq pe hpe)
      have h2 := hpush_snd qe hqe
      omega
  refine
    { visEq := ?_
      flagsF := ?_
      depthSome := ?_
      depthLe := ?_
      nodesReach := ?_
      minimal := ?_
      queueReach := ?_
      sortedQ := ?_
      spreadQ := ?_
      ladder := ?_
      frontK := ?_
      frontM := ?_
      edgesP := ?_
      seedsJ := ?_
      edgesIdx := ?_ }
  · -- visEq
    intro q
    rw [hsv, hsn, hmem_ids q]
    constructor
    · intro hv
      rcases List.mem_cons.mp hv with rfl | hv
      · exact Or.inr rfl
      · exact Or.inl ((inv.visEq q).mp hv)
    · rintro (hid | rfl)
      · exact List.mem_cons_of_mem _ ((inv.visEq q).mpr hid)
      · exact List.mem_cons_self _ _
  · -- flagsF
    intro n hn
    rw [hsn] at hn
    rcases (hmem_nodes n).mp hn with h | rfl
    · exact inv.flagsF n h
    · rfl
  · -- depthSome
    intro n hn
    rw [hsn] at hn
    rcases (hmem_nodes n).mp hn with h | rfl
    · exact inv.depthSome n h
    · rfl
  · -- depthLe
    intro n hn
    rw [hsn] at hn
    rcases (hmem_nodes n).mp hn with h | rfl
    · exact inv.depthLe n h
    · exact hnpd ▸ hd
  · -- nodesReach
    intro n hn
    rw [hsn] at hn
    rcases (hmem_nodes n).mp hn with h | rfl
    · exact inv.nodesReach n h
    · exact hreachp
  · -- minimal
    intro n hn j hr
    rw [hsn] at hn
    rcases (hmem_nodes n).mp hn with h | rfl
    · exact inv.minimal n h j hr
    · show d ≤ j
      by_contra hcon
      exact hpnotid (inv.frontK (p, d) hhead p j (by omega) (by omega) hr)
  · -- queueReach
    intro pe hpe
    rw [hsq] at hpe
    rcases hQcase pe hpe with h1 | h2
    · exact inv.queueReach pe (hmemq pe h1)
    · rcases pe with ⟨q, e⟩
      obtain ⟨hadj, _, rfl⟩ := (hpush_mem q e).mp h2
      exact Or.inr ⟨p, hreachp, hadj⟩
  · -- sortedQ
    rw [hsq]
    exact hsorted'
  · -- spreadQ
    intro pe hpe h hh
    rw [hsq] at hpe hh
    have h1 : pe.2 ≤ d + 1 := hQle pe hpe
    have h2 : d ≤ h.2 := by
      rcases hQcase h (List.mem_of_mem_head? hh) with hm | hm
      · exact hd_le h hm
      · rw [hpush_snd h hm]; omega
    omega
  · -- ladder
    intro n hn q hadj
    rw [hsn] at hn
    rw [hsq, hsn]
    rcases (hmem_nodes n).mp hn with h | rfl
    · rcases inv.ladder n h q hadj with h1 | h2 | ⟨e, he, hle⟩
      · exact Or.inl h1
      · exact Or.inr (Or.inl ((hmem_ids q).mpr (Or.inl h2)))
      · rcases hcase _ he with heq | hmem
        · have : q = p := congrArg Prod.fst heq
          exact Or.inr (Or.inl ((hmem_ids q).mpr (Or.inr this)))
        · exact Or.inr (Or.inr ⟨e, List.mem_append_left _ hmem, hle⟩)
    · by_cases hqv : q ∈ p :: s.visited
      · exact Or.inr (Or.inl (hvis_ids q hqv))
      · refine Or.inr (Or.inr ⟨d + 1, ?_, ?_⟩)
        · exact List.mem_append_right _ ((hpush_mem q (d + 1)).mpr ⟨hadj, hqv, rfl⟩)
        · rw [hnpd]
  · -- frontK
    intro h hh q k hk hkle hr
    rw [hsq] at hh
    rw [hsn]
    have hhb : h.2 ≤ d + 1 := hQle h (List.mem_of_mem_head? hh)
    rcases Nat.lt_or_ge k d with hlt | hge
    · exact (hmem_ids q).mpr (Or.inl (inv.frontK (p, d) hhead q k hlt hkle hr))
    · have hkd : k = d := by omega
      rcases inv.frontM (p, d) hhead q k (by omega) hkle hr with hid | hqk
      · exact (hmem_ids q).mpr (Or.inl hid)
      · rcases hcase _ hqk with heq | hmem
        · have : q = p := congrArg Prod.fst heq
          exact (hmem_ids q).mpr (Or.inr this)
        · have := head_le_of_sorted hsorted' hh (List.mem_append_left _ hmem)
          omega
  · -- frontM
    intro h hh q k hk hkle hr
    rw [hsq] at hh ⊢
    rw [hsn]
    have hhb : h.2 ≤ d + 1 := hQle h (List.mem_of_mem_head? hh)
    rcases Nat.lt_or_ge k d with hlt | hge
    · exact Or.inl ((hmem_ids q).mpr (Or.inl (inv.frontK (p, d) hhead q k hlt hkle hr)))
    · rcases Nat.lt_or_ge k (d + 1) with hlt1 | hge1
      · -- k = d
        rcases inv.frontM (p, d) hhead q k (by omega) hkle hr with hid | hqk
        · exact Or.inl ((hmem_ids q).mpr (Or.inl hid))
        · rcases hcase _ hqk with heq | hmem
          · have : q = p := congrArg Prod.fst heq
            exact Or.inl ((hmem_ids q).mpr (Or.inr this))
          · exact Or.inr (List.mem_append_left _ hmem)
      · -- k = d + 1
        have hkd : k = d + 1 := by omega
        subst hkd
        rw [reach_succ_iff] at hr
        rcases hr with hr0 | ⟨u, hu, hadj⟩
        · rcases inv.frontM (p, d) hhead q d le_rfl (by omega) hr0 with hid | hqk
          · exact Or.inl ((hmem_ids q).mpr (Or.inl hid))
          · rcases hcase _ hqk with heq | hmem
            · have : q = p := congrArg Prod.fst heq
              exact Or.inl ((hmem_ids q).mpr (Or.inr this))
            · have := head_le_of_sorted hsorted' hh (List.mem_append_left _ hmem)
              omega
        · rcases inv.frontM (p, d) hhead u d le_rfl (by omega) hu with huid | huq
          · obtain ⟨nu, hnu, hnuid⟩ := mem_nodeIds.mp huid
            have hmin : ndepth nu ≤ d := inv.minimal nu hnu d (by rw [hnuid]; exact hu)
            rcases inv.ladder nu hnu q (by rw [hnuid]; exact hadj) with hm | hid | ⟨e, he, hle⟩
            · omega
            · exact Or.inl ((hmem_ids q).mpr (Or.inl hid))
            · rcases hcase _ he with heq | hmem
              · have : q = p := congrArg Prod.fst heq
                exact Or.inl ((hmem_ids q).mpr (Or.inr this))
              · have h1 := head_le_of_sorted hsorted' hh (List.mem_append_left _ hmem)
                have h2 : e = d + 1 := by omega
                exact Or.inr (List.mem_append_left _ (h2 ▸ hmem))
          · rcases hcase _ huq with hequ | hmemu
            · have hup : u = p := congrArg Prod.fst hequ
              subst hup
              by_cases hqv : q ∈ u :: s.visited
              · exact Or.inl (hvis_ids q hqv)
              · exact Or.inr (List.mem_append_right _
                  ((hpush_mem q (d + 1)).mpr ⟨hadj, hqv, rfl⟩))
            · have := head_le_of_sorted hsorted' hh (List.mem_append_left _ hmemu)
              omega
  · -- edgesP
    intro e he
    rw [hse] at he
    rw [hsn, hsq]
    rcases List.mem_append.mp he with hold | hnew
    · obtain ⟨⟨n, hn, hnid⟩, h2⟩ := inv.edgesP e hold
      refine ⟨⟨n, (hmem_nodes n).mpr (Or.inl hn), hnid⟩, ?_⟩
      rcases h2 with hid | ⟨d', n', hn', hnid', hentry, hle⟩ | ⟨n', hn', hnid', hmx⟩
      · exact Or.inl ((hmem_ids _).mpr (Or.inl hid))
      · rcases hcase _ hentry with heq | hmem
        · have : e.toId = p := congrArg Prod.fst heq
          exact Or.inl ((hmem_ids _).mpr (Or.inr this))
        · exact Or.inr (Or.inl ⟨d', n', (hmem_nodes n').mpr (Or.inl hn'), hnid',
            List.mem_append_left _ hmem, hle⟩)
      · exact Or.inr (Or.inr ⟨n', (hmem_nodes n').mpr (Or.inl hn'), hnid', hmx⟩)
    · obtain ⟨hef, het⟩ := mem_newEdgesOf hnew
      refine ⟨⟨nodeOf index p d, (hmem_nodes _).mpr (Or.inr rfl), by rw [hnpid, hef]⟩, ?_⟩
      by_cases hqv : e.toId ∈ p :: s.visited
      · exact Or.inl (hvis_ids _ hqv)
      · refine Or.inr (Or.inl ⟨d + 1, nodeOf index p d, (hmem_nodes _).mpr (Or.inr rfl),
          by rw [hnpid, hef], ?_, by rw [hnpd]⟩)
        exact List.mem_append_right _ ((hpush_mem _ (d + 1)).mpr ⟨het, hqv, rfl⟩)
  · -- seedsJ
    intro a ha
    rw [hsn, hsq]
    rcases inv.seedsJ a ha with hid | hmem
    · exact Or.inl ((hmem_ids a).mpr (Or.inl hid))
    · rcases hcase _ hmem with heq | hmem
      · have : a = p := congrArg Prod.fst heq
        exact Or.inl ((hmem_ids a).mpr (Or.inr this))
      · exact Or.inr (List.mem_append_left _ hmem)
  · -- edgesIdx
    intro e he
    rw [hse] at he
    rcases List.mem_append.mp he with hold | hnew
    · exact inv.edgesIdx e hold
    · obtain ⟨hef, _⟩ := mem_newEdgesOf hnew
      rw [hef]
      cases hlf : lookupFile index p with
      | none =>
        rw [newEdgesOf_nil hlf] at hnew
        cases hnew
      | some f => simp [hlf]

/-! ## Running the loop -/

theorem bfsLoop_zero (fsys : FS) (index : RepoIndex) (maxD : Nat) (s : BState) :
    bfsLoop fsys index maxD 0 s = s := rfl

theorem bfsLoop_succ_nil (fsys : FS) (index : RepoIndex) (maxD : Nat) (fuel : Nat)
    {s : BState} (h : s.queue = []) :
    bfsLoop fsys index maxD (fuel + 1) s = s := by
  simp only [bfsLoop, h]

theorem bfsLoop_succ_cons (fsys : FS) (index : RepoIndex) (maxD : Nat) (fuel : Nat)
    {s : BState} {p : String} {d : Nat} {rest : List (String × Nat)}
    (h : s.queue = (p, d) :: rest) :
    bfsLoop fsys index maxD (fuel + 1) s =
      if p ∈ s.visited then bfsLoop fsys index maxD fuel { s with queue := rest }
      else if maxD < d then bfsLoop fsys index maxD fuel { s with queue := rest }
      else bfsLoop fsys index maxD fuel (stepVisit fsys index s p d rest) := by
  simp only [bfsLoop, h]

theorem bfsInv_init (fsys : FS) (index : RepoIndex) (seeds : List String) (maxD : Nat) :
    BfsInv fsys index seeds maxD
      { queue := seeds.map (fun p => (p, 0)), visited := [], nodes := [], edges := [],
        edgeMap := [] } := by
  have hmemseed : ∀ pe : String × Nat, pe ∈ seeds.map (fun p => (p, 0)) →
      pe.2 = 0 ∧ pe.1 ∈ seeds := by
    intro pe hpe
    obtain ⟨a, ha, rfl⟩ := List.mem_map.mp hpe
    exact ⟨rfl, ha⟩
  refine
    { visEq := by intro q; simp [nodeIds]
      flagsF := by intro n hn; cases hn
      depthSome := by intro n hn; cases hn
      depthLe := by intro n hn; cases hn
      nodesReach := by intro n hn; cases hn
      minimal := by intro n hn; cases hn
      queueReach := ?_
      sortedQ := ?_
      spreadQ := ?_
      ladder := by intro n hn; cases hn
      frontK := ?_
      frontM := ?_
      edgesP := by intro e he; cases he
      seedsJ := ?_
      edgesIdx := by intro e he; cases he }
  · intro pe hpe
    obtain ⟨h0, hs⟩ := hmemseed pe hpe
    rcases pe with ⟨q, e⟩
    simp only at h0
    subst h0
    exact hs
  · refine pairwise_le_of_const (x := 0) ?_
    intro a ha
    obtain ⟨pe, hpe, rfl⟩ := List.mem_map.mp ha
    exact (hmemseed pe hpe).1
  · intro pe hpe h hh
    have h1 := (hmemseed pe hpe).1
    omega
  · intro h hh q k hk hkle hr
    have h0 := (hmemseed h (List.mem_of_mem_head? hh)).1
    omega
  · intro h hh q k hk hkle hr
    have h0 := (hmemseed h (List.mem_of_mem_head? hh)).1
    have hk0 : k = 0 := by omega
    subst hk0
    have hq : q ∈ seeds := hr
    exact Or.inr (List.mem_map.mpr ⟨q, hq, rfl⟩)
  · intro a ha
    exact Or.inr (List.mem_map.mpr ⟨a, ha, rfl⟩)

theorem bfsInv_loop {fsys : FS} {index : RepoIndex} {seeds : List String} {maxD : Nat} :
    ∀ (fuel : Nat) (s : BState), BfsInv fsys index seeds maxD s →
      BfsInv fsys index seeds maxD (bfsLoop fsys index maxD fuel s) := by
  intro fuel
  induction fuel with
  | zero => intro s inv; exact inv
  | succ fuel ih =>
    intro s inv
    cases hq : s.queue with
    | nil => rw [bfsLoop_succ_nil _ _ _ _ hq]; exact inv
    | cons pe rest =>
      rcases pe with ⟨p, d⟩
      rw [bfsLoop_succ_cons _ _ _ _ hq]
      by_cases hp : p ∈ s.visited
      · rw [if_pos hp]
        exact ih _ (bfsInv_skip_visited hq inv hp)
      · rw [if_neg hp]
        by_cases hdd : maxD < d
        · rw [if_pos hdd]
          exact ih _ (bfsInv_skip_depth hq inv hdd)
        · rw [if_neg hdd]
          exact ih _ (bfsInv_visit hq inv hp (by omega))

/-! ## The fuel is sufficient: the loop drains its queue -/

theorem lookupFile_aux (p : String) :
    ∀ (l : RepoIndex) (acc : Option FileRec) (f : FileRec),
      l.foldl (fun acc g => if g.relativePath = p then some g else acc) acc = some f →
      acc = some f ∨ (f ∈ l ∧ f.relativePath = p) := by
  intro l
  induction l with
  | nil => intro acc f h; exact Or.inl h
  | cons g t ih =>
    intro acc f h
    simp only [List.foldl_cons] at h
    rcases ih _ f h with hacc | ⟨hm, hfp⟩
    · by_cases hg : g.relativePath = p
      · rw [if_pos hg] at hacc
        injection hacc with hgf
        exact Or.inr ⟨hgf ▸ List.mem_cons_self _ _, hgf ▸ hg⟩
      · rw [if_neg hg] at hacc
        exact Or.inl hacc
    · exact Or.inr ⟨List.mem_cons_of_mem _ hm, hfp⟩

theorem lookupFile_mem {index : RepoIndex} {p : String} {f : FileRec}
    (h : lookupFile index p = some f) : f ∈ index ∧ f.relativePath = p := by
  rcases lookupFile_aux p index none f h with hacc | hr
  · cases hacc
  · exact hr

theorem unvisited_sum_split (index : RepoIndex) (v : List String) (p : String) (hp : p ∉ v) :
    ((index.filter (fun f => decide (f.relativePath ∉ v))).map (fun f => f.imports.length)).sum =
    ((index.filter (fun f => decide (f.relativePath ∉ p :: v))).map
        (fun f => f.imports.length)).sum + importsTotalAt index p := by
  induction index with
  | nil => simp [importsTotalAt]
  | cons f t ih =>
    simp only [importsTotalAt, List.filter_cons] at ih ⊢
    by_cases hfp : f.relativePath = p
    · have h1 : (decide (f.relativePath ∉ v)) = true := by simp [hfp, hp]
      have h2 : (decide (f.relativePath ∉ p :: v)) = false := by simp [hfp]
      have h3 : (decide (f.relativePath = p)) = true := by simp [hfp]
      simp only [h1, h2, h3, if_true, if_false, Bool.false_eq_true, List.map_cons,
        List.sum_cons]
      omega
    · have h12 : (decide (f.relativePath ∉ p :: v)) = (decide (f.relativePath ∉ v)) := by
        simp [List.mem_cons, hfp]
      have h3 : (decide (f.relativePath = p)) = false := by simp [hfp]
      by_cases hfv : f.relativePath ∈ v
      · have h4 : (decide (f.relativePath ∉ v)) = false := by simp [hfv]
        simp only [h12, h3, h4, if_false, Bool.false_eq_true]
        exact ih
      · have h4 : (decide (f.relativePath ∉ v)) = true := by simp [hfv]
        simp only [h12, h3, h4, if_true, if_false, Bool.false_eq_true, List.map_cons,
          List.sum_cons]
        omega

theorem importsOf_le_total (index : RepoIndex) (p : String) :
    (importsOf index p).length ≤ importsTotalAt index p := by
  unfold importsOf
  cases hlf : lookupFile index p with
  | none => simp
  | some f =>
    obtain ⟨hm, hfp⟩ := lookupFile_mem hlf
    have hfm : f ∈ index.filter (fun g => decide (g.relativePath = p)) :=
      List.mem_filter.mpr ⟨hm, by simp [hfp]⟩
    have hmm : f.imports.length ∈
        (index.filter (fun g => decide (g.relativePath = p))).map (fun f => f.imports.length) :=
      List.mem_map_of_mem _ hfm
    exact List.single_le_sum (fun x _ => Nat.zero_le x) _ hmm

theorem pushes_le (fsys : FS) (index : RepoIndex) (visited' : List String) (p : String)
    (d : Nat) :
    (pushesOf fsys index visited' p d).length ≤ (importsOf index p).length := by
  unfold pushesOf adj
  rw [List.length_map]
  exact le_trans (List.length_filter_le _ _) (List.length_filterMap_le _ _)

theorem phi_lt_skip {index : RepoIndex} {s : BState} {pe : String × Nat}
    {rest : List (String × Nat)} (hq : s.queue = pe :: rest) :
    phi index { s with queue := rest } < phi index s := by
  simp only [phi, hq, List.length_cons]
  omega

theorem phi_lt_visit {fsys : FS} {index : RepoIndex} {s : BState} {p : String} {d : Nat}
    {rest : List (String × Nat)} (hq : s.queue = (p, d) :: rest) (hp : p ∉ s.visited) :
    phi index (stepVisit fsys index s p d rest) < phi index s := by
  have hsplit := unvisited_sum_split index s.visited p hp
  have hle1 := pushes_le fsys index (p :: s.visited) p d
  have hle2 := importsOf_le_total index p
  have hqlen : (stepVisit fsys index s p d rest).queue.length =
      rest.length + (pushesOf fsys index (p :: s.visited) p d).length := by
    show (rest ++ pushesOf fsys index (p :: s.visited) p d).length = _
    rw [List.length_append]
  have hvst : (stepVisit fsys index s p d rest).visited = p :: s.visited := rfl
  simp only [phi, hqlen, hvst, hq, List.length_cons]
  omega

theorem bfsLoop_drains {fsys : FS} {index : RepoIndex} {maxD : Nat} :
    ∀ (fuel : Nat) (s : BState), phi index s ≤ fuel →
      (bfsLoop fsys index maxD fuel s).queue = [] := by
  intro fuel
  induction fuel with
  | zero =>
    intro s h
    rw [bfsLoop_zero]
    have : s.queue.length = 0 := by
      simp only [phi] at h; omega
    exact List.length_eq_zero.mp this
  | succ fuel ih =>
    intro s h
    cases hq : s.queue with
    | nil => rw [bfsLoop_succ_nil _ _ _ _ hq]; exact hq
    | cons pe rest =>
      rcases pe with ⟨p, d⟩
      rw [bfsLoop_succ_cons _ _ _ _ hq]
      by_cases hp : p ∈ s.visited
      · rw [if_pos hp]
        refine ih _ ?_
        have := @phi_lt_skip index s (p, d) rest hq
        omega
      · rw [if_neg hp]
        by_cases hdd : maxD < d
        · rw [if_pos hdd]
          refine ih _ ?_
          have := @phi_lt_skip index s (p, d) rest hq
          omega
        · rw [if_neg hdd]
          refine ih _ ?_
          have := @phi_lt_visit fsys index s p d rest hq hp
          omega

theorem phi_init_le (index : RepoIndex) (seeds : List String) :
    phi index
      { queue := seeds.map (fun p => (p, 0)), visited := [], nodes := [], edges := [],
        edgeMap := [] } ≤ bfsFuel index seeds := by
  simp only [phi, bfsFuel, List.length_map]
  have : (index.filter (fun f => decide (f.relativePath ∉ ([] : List String)))) = index := by
    simp
  rw [this]

/-! ## Final-state facts and builder equations -/

theorem finState_inv (fsys : FS) (index : RepoIndex) (seeds : List String) (maxD : Nat) :
    BfsInv fsys index seeds maxD (finState fsys index seeds maxD) :=
  bfsInv_loop _ _ (bfsInv_init fsys index seeds maxD)

theorem finState_queue (fsys : FS) (index : RepoIndex) (seeds : List String) (maxD : Nat) :
    (finState fsys index seeds maxD).queue = [] :=
  bfsLoop_drains _ _ (phi_init_le index seeds)

theorem build_nodes_eq (fsys : FS) (index : RepoIndex) (seeds : List String) (maxD : Nat)
    (now : String) (gc : Option String) (root : String) :
    (buildDepGraphFromSeeds fsys index seeds maxD now gc root).nodes =
      (finState fsys index seeds maxD).nodes.map
        (flagCirc (detectCycles (finState fsys index seeds maxD).edgeMap).flatten) := rfl

theorem build_edges_eq (fsys : FS) (index : RepoIndex) (seeds : List String) (maxD : Nat)
    (now : String) (gc : Option String) (root : String) :
    (buildDepGraphFromSeeds fsys index seeds maxD now gc root).edges =
      (finState fsys index seeds maxD).edges := rfl

theorem build_cycles_eq (fsys : FS) (index : RepoIndex) (seeds : List String) (maxD : Nat)
    (now : String) (gc : Option String) (root : String) :
    (buildDepGraphFromSeeds fsys index seeds maxD now gc root).cycles =
      detectCycles (finState fsys index seeds maxD).edgeMap := rfl

theorem buildFull_nodes_eq (fsys : FS) (index : RepoIndex) (now : String)
    (gc : Option String) (root : String) :
    (buildDepGraph fsys index now gc root).nodes =
      (fullState fsys index).nodes.map
        (flagCirc (detectCycles (fullState fsys index).edgeMap).flatten) := rfl

theorem buildFull_edges_eq (fsys : FS) (index : RepoIndex) (now : String)
    (gc : Option String) (root : String) :
    (buildDepGraph fsys index now gc root).edges = (fullState fsys index).edges := rfl

theorem buildFull_cycles_eq (fsys : FS) (index : RepoIndex) (now : String)
    (gc : Option String) (root : String) :
    (buildDepGraph fsys index now gc root).cycles =
      detectCycles (fullState fsys index).edgeMap := rfl

theorem flagCirc_id (m : List String) (n : DepNode) : (flagCirc m n).id = n.id := by
  unfold flagCirc; split <;> rfl

theorem flagCirc_depth (m : List String) (n : DepNode) : (flagCirc m n).depth = n.depth := by
  unfold flagCirc; split <;> rfl

theorem flagCirc_ndepth (m : List String) (n : DepNode) : ndepth (flagCirc m n) = ndepth n := by
  unfold ndepth; rw [flagCirc_depth]

theorem nodeIds_flag (m : List String) (ns : List DepNode) :
    nodeIds (ns.map (flagCirc m)) = nodeIds ns := by
  simp only [nodeIds, List.map_map]
  exact List.map_congr_left (fun n _ => flagCirc_id m n)

theorem flagCirc_circ_iff {m : List String} {n : DepNode} (h : n.isCircular = false) :
    ((flagCirc m n).isCircular = true ↔ n.id ∈ m) := by
  unfold flagCirc
  split
  · simpa
  · simp [h]
    assumption

/-! ## Full-mode structural lemmas -/

theorem fullVisit_fold_nodes (fsys : FS) :
    ∀ (l : RepoIndex) (acc : FullAcc),
      (l.foldl (fullVisit fsys) acc).nodes =
        acc.nodes ++ l.map (fun f =>
          ({ id := f.relativePath, path := f.relativePath, type := f.type,
             isExternal := false } : DepNode)) := by
  intro l
  induction l with
  | nil => intro acc; simp
  | cons f t ih =>
    intro acc
    rw [List.foldl_cons, ih]
    show (acc.nodes ++ [_]) ++ _ = _
    rw [List.append_assoc]
    rfl

theorem fullState_nodes (fsys : FS) (index : RepoIndex) :
    (fullState fsys index).nodes =
      index.map (fun f =>
        ({ id := f.relativePath, path := f.relativePath, type := f.type,
           isExternal := false } : DepNode)) := by
  unfold fullState
  rw [fullVisit_fold_nodes]
  rfl

theorem fullState_flags (fsys : FS) (index : RepoIndex) :
    ∀ n ∈ (fullState fsys index).nodes, n.isCircular = false := by
  intro n hn
  rw [fullState_nodes] at hn
  obtain ⟨f, _, rfl⟩ := List.mem_map.mp hn
  rfl

theorem fullState_ids (fsys : FS) (index : RepoIndex) :
    nodeIds (fullState fsys index).nodes = index.map FileRec.relativePath := by
  rw [fullState_nodes]
  simp [nodeIds]

theorem fullImportStep_edges (fsys : FS) (f : FileRec) (content : String) :
    ∀ (specs : List String) (r : List String × List DepEdge × List String),
      ∀ e ∈ (specs.foldl (fullImportStep fsys f content) r).2.1,
        e ∈ r.2.1 ∨ e.fromId = f.relativePath := by
  intro specs
  induction specs with
  | nil => intro r e he; exact Or.inl he
  | cons spec t ih =>
    intro r e he
    rw [List.foldl_cons] at he
    rcases ih _ e he with hmem | hf
    · unfold fullImportStep at hmem
      dsimp only at hmem
      split at hmem
      · exact Or.inl hmem
      · split at hmem
        · rcases List.mem_append.mp hmem with h1 | h2
          · exact Or.inl h1
          · rcases List.mem_singleton.mp h2 with rfl
            exact Or.inr rfl
        · exact Or.inl hmem
    · exact Or.inr hf

theorem fullVisit_edges (fsys : FS) (acc : FullAcc) (f : FileRec) :
    ∀ e ∈ (fullVisit fsys acc f).edges, e ∈ acc.edges ∨ e.fromId = f.relativePath := by
  intro e he
  have hrw : (fullVisit fsys acc f).edges =
      acc.edges ++ (f.imports.foldl
        (fullImportStep fsys f ((readFileAt fsys f.relativePath).getD ""))
        ([], [], acc.externalDeps)).2.1 := rfl
  rw [hrw] at he
  rcases List.mem_append.mp he with h1 | h2
  · exact Or.inl h1
  · rcases fullImportStep_edges fsys f _ f.imports _ e h2 with h3 | h4
    · cases h3
    · exact Or.inr h4

theorem fullVisit_fold_edges (fsys : FS) (S : String → Prop) :
    ∀ (l : RepoIndex) (acc : FullAcc),
      (∀ e ∈ acc.edges, S e.fromId) → (∀ f ∈ l, S f.relativePath) →
      ∀ e ∈ (l.foldl (fullVisit fsys) acc).edges, S e.fromId := by
  intro l
  induction l with
  | nil => intro acc hacc _ e he; exact hacc e he
  | cons f t ih =>
    intro acc hacc hl e he
    rw [List.foldl_cons] at he
    refine ih _ ?_ (fun g hg => hl g (List.mem_cons_of_mem _ hg)) e he
    intro e' he'
    rcases fullVisit_edges fsys acc f e' he' with h1 | h2
    · exact hacc e' h1
    · exact h2 ▸ hl f (List.mem_cons_self _ _)

theorem fullState_edges_from (fsys : FS) (index : RepoIndex) :
    ∀ e ∈ (fullState fsys index).edges, e.fromId ∈ index.map FileRec.relativePath := by
  refine fullVisit_fold_edges fsys _ index _ (fun e he => ?_) (fun f hf => ?_)
  · cases he
  · exact List.mem_map_of_mem _ hf

/-! ## Claim theorems -/

/-- C1 counterexample: the claim that every edge's `from` and `to` refer
to nodes of the final node set fails in seeded mode.  With seed `a.ts`
importing `b.ts` and `maxDepth = 0`, the builder records the edge
`a.ts → b.ts` although `b.ts` is never added as a node. -/
theorem c1_counterexample :
    ¬ (∀ e ∈ gBound.edges,
        e.fromId ∈ nodeIds gBound.nodes ∧ e.toId ∈ nodeIds gBound.nodes) := by
  decide

/-- C1 amended: in seeded mode every edge's `from` is a node, and its `to`
is a node unless the source node sits exactly at the `maxDepth` frontier,
in which case the edge is recorded but its target may be missing; in
full-repository mode every edge's `from` is a node, and its `to` is a node
exactly when the resolver's returned path coincides with an indexed file's
relative path. -/
theorem c1_edges_amended (fsys : FS) (index : RepoIndex) (seeds : List String) (maxD : Nat)
    (now : String) (gc : Option String) (root : String) :
    (∀ e ∈ (buildDepGraphFromSeeds fsys index seeds maxD now gc root).edges,
       e.fromId ∈ nodeIds (buildDepGraphFromSeeds fsys index seeds maxD now gc root).nodes ∧
       (e.toId ∈ nodeIds (buildDepGraphFromSeeds fsys index seeds maxD now gc root).nodes ∨
        ∃ n ∈ (buildDepGraphFromSeeds fsys index seeds maxD now gc root).nodes,
          n.id = e.fromId ∧ n.depth = some maxD)) ∧
    (∀ e ∈ (buildDepGraph fsys index now gc root).edges,
       e.fromId ∈ nodeIds (buildDepGraph fsys index now gc root).nodes ∧
       (e.toId ∈ nodeIds (buildDepGraph fsys index now gc root).nodes ↔
        e.toId ∈ index.map FileRec.relativePath)) := by
  constructor
  · intro e he
    rw [build_edges_eq] at he
    have inv := finState_inv fsys index seeds maxD
    have hqe := finState_queue fsys index seeds maxD
    obtain ⟨⟨n, hn, hnid⟩, h2⟩ := inv.edgesP e he
    rw [build_nodes_eq, nodeIds_flag]
    constructor
    · exact mem_nodeIds.mpr ⟨n, hn, hnid⟩
    · rcases h2 with hid | ⟨d', n', hn', hnid', hentry, _⟩ | ⟨n', hn', hnid', hmx⟩
      · exact Or.inl hid
      · rw [hqe] at hentry; cases hentry
      · refine Or.inr ⟨flagCirc _ n', List.mem_map_of_mem _ hn', ?_, ?_⟩
        · rw [flagCirc_id]; exact hnid'
        · rw [flagCirc_depth]
          have h1 := inv.depthSome n' hn'
          have h2 := inv.depthLe n' hn'
          have h3 : ndepth n' = maxD := le_antisymm h2 hmx
          rw [h1, h3]
  · intro e he
    rw [buildFull_edges_eq] at he
    rw [buildFull_nodes_eq, nodeIds_flag, fullState_ids]
    exact ⟨fullState_edges_from fsys index e he, Iff.rfl⟩

/-- C1 amended witness at the depth-bound fixture. -/
theorem c1_edges_amended_witness :
    (({ fromId := "a.ts", toId := "b.ts", kind := .static } : DepEdge) ∈
      (buildDepGraphFromSeeds fsBound idxBound ["a.ts"] 0 "t0" none "/repo").edges) ∧
    (({ fromId := "a.ts", toId := "b.ts", kind := .static } : DepEdge).fromId ∈
      nodeIds (buildDepGraphFromSeeds fsBound idxBound ["a.ts"] 0 "t0" none "/repo").nodes ∧
     (({ fromId := "a.ts", toId := "b.ts", kind := .static } : DepEdge).toId ∈
        nodeIds (buildDepGraphFromSeeds fsBound idxBound ["a.ts"] 0 "t0" none "/repo").nodes ∨
      ∃ n ∈ (buildDepGraphFromSeeds fsBound idxBound ["a.ts"] 0 "t0" none "/repo").nodes,
        n.id = ({ fromId := "a.ts", toId := "b.ts", kind := .static } : DepEdge).fromId ∧
        n.depth = some 0)) :=
  ⟨by decide,
   (c1_edges_amended fsBound idxBound ["a.ts"] 0 "t0" none "/repo").1
     { fromId := "a.ts", toId := "b.ts", kind := .static } (by decide)⟩

/-- C2 counterexample: a seed path that exists neither on disk nor in the
index is not skipped at the seed stage — it still appears as a node of the
resulting graph. -/
theorem c2_counterexample :
    fsExistsAt ([] : FS) "ghost.ts" = false ∧
    lookupFile ([] : RepoIndex) "ghost.ts" = none ∧
    "ghost.ts" ∈ nodeIds gGhost.nodes := by
  decide

/-- C2 amended: every seed path — existing or not — becomes a node at
depth 0, no error is raised for it, and a seed absent from the index
contributes no outbound edges. -/
theorem c2_seed_nodes_amended (fsys : FS) (index : RepoIndex) (seeds : List String)
    (maxD : Nat) (now : String) (gc : Option String) (root : String) :
    ∀ a ∈ seeds,
      (∃ n ∈ (buildDepGraphFromSeeds fsys index seeds maxD now gc root).nodes,
        n.id = a ∧ n.depth = some 0) ∧
      (lookupFile index a = none →
        ∀ e ∈ (buildDepGraphFromSeeds fsys index seeds maxD now gc root).edges,
          e.fromId ≠ a) := by
  intro a ha
  have inv := finState_inv fsys index seeds maxD
  have hqe := finState_queue fsys index seeds maxD
  constructor
  · rcases inv.seedsJ a ha with hid | hmem
    · obtain ⟨m, hm, hmid⟩ := mem_nodeIds.mp hid
      have hr0 : Reach fsys index seeds 0 m.id := by rw [hmid]; exact ha
      have hd0 : ndepth m = 0 := Nat.le_zero.mp (inv.minimal m hm 0 hr0)
      refine ⟨flagCirc (detectCycles (finState fsys index seeds maxD).edgeMap).flatten m,
        ?_, ?_, ?_⟩
      · rw [build_nodes_eq]; exact List.mem_map_of_mem _ hm
      · rw [flagCirc_id]; exact hmid
      · rw [flagCirc_depth, inv.depthSome m hm, hd0]
    · rw [hqe] at hmem; cases hmem
  · intro hnone e he hfa
    rw [build_edges_eq] at he
    have := inv.edgesIdx e he
    rw [hfa, hnone] at this
    cases this

/-- C2 amended witness at the ghost-seed fixture. -/
theorem c2_seed_nodes_amended_witness :
    ("ghost.ts" ∈ (["ghost.ts"] : List String)) ∧
    ((∃ n ∈ (buildDepGraphFromSeeds [] [] ["ghost.ts"] 5 "t0" none "/repo").nodes,
        n.id = "ghost.ts" ∧ n.depth = some 0) ∧
     (lookupFile ([] : RepoIndex) "ghost.ts" = none →
        ∀ e ∈ (buildDepGraphFromSeeds [] [] ["ghost.ts"] 5 "t0" none "/repo").edges,
          e.fromId ≠ "ghost.ts")) :=
  ⟨by decide,
   c2_seed_nodes_amended [] [] ["ghost.ts"] 5 "t0" none "/repo" "ghost.ts" (by decide)⟩

/-- C4: in every seeded graph, every node carries a recorded depth, that
depth is at most `maxDepth`, it reaches the node from the seed set in
exactly that many BFS hops while no smaller hop count does (i.e. it equals
the BFS shortest-hop distance), and every seed node has depth 0. -/
theorem c4_depth_bfs (fsys : FS) (index : RepoIndex) (seeds : List String) (maxD : Nat)
    (now : String) (gc : Option String) (root : String) :
    ∀ n ∈ (buildDepGraphFromSeeds fsys index seeds maxD now gc root).nodes,
      n.depth = some (ndepth n) ∧
      ndepth n ≤ maxD ∧
      Reach fsys index seeds (ndepth n) n.id ∧
      (∀ j, Reach fsys index seeds j n.id → ndepth n ≤ j) ∧
      (n.id ∈ seeds → ndepth n = 0) := by
  intro n hn
  rw [build_nodes_eq] at hn
  obtain ⟨m, hm, rfl⟩ := List.mem_map.mp hn
  have inv := finState_inv fsys index seeds maxD
  rw [flagCirc_id, flagCirc_depth, flagCirc_ndepth]
  refine ⟨inv.depthSome m hm, inv.depthLe m hm, inv.nodesReach m hm, inv.minimal m hm, ?_⟩
  intro hs
  have h0 : Reach fsys index seeds 0 m.id := hs
  exact Nat.le_zero.mp (inv.minimal m hm 0 h0)

/-- C4 witness at the cycle fixture: node `b.ts` sits at depth 1. -/
theorem c4_depth_bfs_witness :
    (({ id := "b.ts", path := "b.ts", type := "lib", isExternal := false,
        isCircular := true, depth := some 1 } : DepNode) ∈
      (buildDepGraphFromSeeds fsCyc idxCyc ["a.ts"] 5 "t0" none "/repo").nodes) ∧
    (({ id := "b.ts", path := "b.ts", type := "lib", isExternal := false,
        isCircular := true, depth := some 1 } : DepNode).depth = some 1 ∧
     (1 : Nat) ≤ 5 ∧
     Reach fsCyc idxCyc ["a.ts"] 1 "b.ts" ∧
     (∀ j, Reach fsCyc idxCyc ["a.ts"] j "b.ts" → 1 ≤ j) ∧
     ("b.ts" ∈ (["a.ts"] : List String) → (1 : Nat) = 0)) :=
  ⟨by decide,
   c4_depth_bfs fsCyc idxCyc ["a.ts"] 5 "t0" none "/repo"
     { id := "b.ts", path := "b.ts", type := "lib", isExternal := false,
       isCircular := true, depth := some 1 } (by decide)⟩

/-- C5: in both builder modes, a node is flagged `isCircular` exactly when
its id appears in at least one reported cycle. -/
theorem c5_isCircular_iff (fsys : FS) (index : RepoIndex) (seeds : List String) (maxD : Nat)
    (now : String) (gc : Option String) (root : String) :
    (∀ n ∈ (buildDepGraphFromSeeds fsys index seeds maxD now gc root).nodes,
       (n.isCircular = true ↔
        ∃ c ∈ (buildDepGraphFromSeeds fsys index seeds maxD now gc root).cycles, n.id ∈ c)) ∧
    (∀ n ∈ (buildDepGraph fsys index now gc root).nodes,
       (n.isCircular = true ↔
        ∃ c ∈ (buildDepGraph fsys index now gc root).cycles, n.id ∈ c)) := by
  constructor
  · intro n hn
    rw [build_nodes_eq] at hn
    obtain ⟨m, hm, rfl⟩ := List.mem_map.mp hn
    have hflag := (finState_inv fsys index seeds maxD).flagsF m hm
    rw [build_cycles_eq, flagCirc_id, flagCirc_circ_iff hflag]
    exact List.mem_flatten
  · intro n hn
    rw [buildFull_nodes_eq] at hn
    obtain ⟨m, hm, rfl⟩ := List.mem_map.mp hn
    have hflag := fullState_flags fsys index m hm
    rw [buildFull_cycles_eq, flagCirc_id, flagCirc_circ_iff hflag]
    exact List.mem_flatten

/-- C5 witness at the cycle fixture: node `a.ts` is flagged circular and
appears in the one reported cycle. -/
theorem c5_isCircular_iff_witness :
    (({ id := "a.ts", path := "a.ts", type := "lib", isExternal := false,
        isCircular := true, depth := some 0 } : DepNode) ∈
      (buildDepGraphFromSeeds fsCyc idxCyc ["a.ts"] 5 "t0" none "/repo").nodes) ∧
    (({ id := "a.ts", path := "a.ts", type := "lib", isExternal := false,
        isCircular := true, depth := some 0 } : DepNode).isCircular = true ↔
     ∃ c ∈ (buildDepGraphFromSeeds fsCyc idxCyc ["a.ts"] 5 "t0" none "/repo").cycles,
       ({ id := "a.ts", path := "a.ts", type := "lib", isExternal := false,
          isCircular := true, depth := some 0 } : DepNode).id ∈ c) :=
  ⟨by decide,
   (c5_isCircular_iff fsCyc idxCyc ["a.ts"] 5 "t0" none "/repo").1
     { id := "a.ts", path := "a.ts", type := "lib", isExternal := false,
       isCircular := true, depth := some 0 } (by decide)⟩

/-- C3 counterexample: in the byte-budget scenario (ceiling 100; sizes 40,
70, 30 in sorted order) the 70-byte file is excluded, but its recorded
reason is `size`, not `budget` — no `budget` reason exists in the code. -/
theorem c3_counterexample :
    slByte.excluded = [{ file := "bz.ts", reason := "size" }] ∧
    ¬ ∃ ex ∈ slByte.excluded, ex.reason = "budget" := by
  decide

/-- C3 amended: the slicing loop is greedy-continue — whenever adding a
node's cost unit to the running total would exceed the active ceiling, the
step only appends one exclusion record and leaves the included files and
both running totals unchanged, so iteration continues and a later smaller
file can still be included; the exclusion reason is `token_budget` in the
token dimension but `size` (the same label as the per-file cap) in the
byte dimension.  Byte scenario: budget 100, sizes 40/70/30 → the 40- and
30-byte files are included, the 70-byte file is excluded with reason
`size`; token scenario: ceiling 21, estimates 12/20/9 → same inclusions,
exclusion reason `token_budget`. -/
theorem c3_budget_amended (fsys : FS) (exclude : List String) (maxFileBytes : Nat)
    (maxBytes : Nat) (tb : Nat) (seeds : List String) (acc : SliceAcc) (node : DepNode)
    (content : String)
    (h1 : matchesPatterns node.id exclude = false)
    (h2 : readFileAt fsys node.id = some content)
    (h3 : ¬ maxFileBytes < strLen content) :
    (maxBytes < acc.totalBytes + strLen content →
      sliceStep fsys exclude maxFileBytes none maxBytes seeds acc node =
        { acc with excluded := acc.excluded ++ [{ file := node.id, reason := "size" }] }) ∧
    (tb < acc.totalTokens + estimateTokens content →
      sliceStep fsys exclude maxFileBytes (some tb) maxBytes seeds acc node =
        { acc with excluded :=
            acc.excluded ++ [{ file := node.id, reason := "token_budget" }] }) ∧
    slByte.files.map SliceFile.relativePath = ["ay.ts", "cw.ts"] ∧
    slByte.excluded = [{ file := "bz.ts", reason := "size" }] ∧
    slByte.summary.totalBytes = 70 ∧
    slToken.files.map SliceFile.relativePath = ["ay.ts", "cw.ts"] ∧
    slToken.excluded = [{ file := "bz.ts", reason := "token_budget" }] ∧
    slToken.summary.totalTokens = 21 := by
  refine ⟨?_, ?_, by decide, by decide, by decide, by decide, by decide, by decide⟩
  · intro hb
    unfold sliceStep
    rw [if_neg (by simp [h1]), h2]
    simp only []
    rw [if_neg h3, if_pos hb]
  · intro ht
    unfold sliceStep
    rw [if_neg (by simp [h1]), h2]
    simp only []
    rw [if_neg h3, if_pos ht]

/-- C3 amended witness: the budget fixture at the 70-byte file `bz.ts`
with running totals 40 bytes / 12 tokens. -/
theorem c3_budget_amended_witness :
    (matchesPatterns "bz.ts" [] = false ∧
     readFileAt fsBudget "bz.ts" = some ⟨List.replicate 70 'b'⟩ ∧
     ¬ 409600 < strLen ⟨List.replicate 70 'b'⟩) ∧
    ((100 < 40 + strLen (⟨List.replicate 70 'b'⟩ : String) →
       sliceStep fsBudget [] 409600 none 100 ["ay.ts", "bz.ts", "cw.ts"]
           { files := [], excluded := [], totalBytes := 40, totalTokens := 12 }
           { id := "bz.ts", path := "bz.ts", type := "lib", isExternal := false,
             isCircular := false, depth := some 0 } =
         { files := [], excluded := [{ file := "bz.ts", reason := "size" }],
           totalBytes := 40, totalTokens := 12 }) ∧
     (21 < 12 + estimateTokens (⟨List.replicate 70 'b'⟩ : String) →
       sliceStep fsBudget [] 409600 (some 21) 8388608 ["ay.ts", "bz.ts", "cw.ts"]
           { files := [], excluded := [], totalBytes := 40, totalTokens := 12 }
           { id := "bz.ts", path := "bz.ts", type := "lib", isExternal := false,
             isCircular := false, depth := some 0 } =
         { files := [], excluded := [{ file := "bz.ts", reason := "token_budget" }],
           totalBytes := 40, totalTokens := 12 }) ∧
     slByte.files.map SliceFile.relativePath = ["ay.ts", "cw.ts"] ∧
     slByte.excluded = [{ file := "bz.ts", reason := "size" }] ∧
     slByte.summary.totalBytes = 70 ∧
     slToken.files.map SliceFile.relativePath = ["ay.ts", "cw.ts"] ∧
     slToken.excluded = [{ file := "bz.ts", reason := "token_budget" }] ∧
     slToken.summary.totalTokens = 21) :=
  ⟨⟨by decide, by decide, by decide⟩,
   c3_budget_amended fsBudget [] 409600 100 21 ["ay.ts", "bz.ts", "cw.ts"]
     { files := [], excluded := [], totalBytes := 40, totalTokens := 12 }
     { id := "bz.ts", path := "bz.ts", type := "lib", isExternal := false,
       isCircular := false, depth := some 0 }
     ⟨List.replicate 70 'b'⟩ (by decide) (by decide) (by decide)⟩

/-! ### Cycle-emission structure (for C6) -/

theorem dfsNode_succ (g : List (String × List String)) (fuel : Nat) (st : DfsState)
    (node : String) :
    dfsNode g (fuel + 1) st node =
      { visited := ((lookupEdges g node).foldl
          (fun st' nbr =>
            if nbr ∈ st'.visited then
              if nbr ∈ st'.path then
                { st' with cycles := st'.cycles ++ [st'.path.drop (st'.path.indexOf nbr)] }
              else st'
            else dfsNode g fuel st' nbr)
          { visited := node :: st.visited, path := st.path ++ [node],
            cycles := st.cycles }).visited,
        path := ((lookupEdges g node).foldl
          (fun st' nbr =>
            if nbr ∈ st'.visited then
              if nbr ∈ st'.path then
                { st' with cycles := st'.cycles ++ [st'.path.drop (st'.path.indexOf nbr)] }
              else st'
            else dfsNode g fuel st' nbr)
          { visited := node :: st.visited, path := st.path ++ [node],
            cycles := st.cycles }).path.dropLast,
        cycles := ((lookupEdges g node).foldl
          (fun st' nbr =>
            if nbr ∈ st'.visited then
              if nbr ∈ st'.path then
                { st' with cycles := st'.cycles ++ [st'.path.drop (st'.path.indexOf nbr)] }
              else st'
            else dfsNode g fuel st' nbr)
          { visited := node :: st.visited, path := st.path ++ [node],
            cycles := st.cycles }).cycles } := rfl

theorem dfs_fold_path (g : List (String × List String)) (fuel : Nat)
    (hrec : ∀ (st : DfsState) (node : String), (dfsNode g fuel st node).path = st.path) :
    ∀ (l : List String) (st' : DfsState),
      ((l.foldl (fun st' nbr =>
          if nbr ∈ st'.visited then
            if nbr ∈ st'.path then
              { st' with cycles := st'.cycles ++ [st'.path.drop (st'.path.indexOf nbr)] }
            else st'
          else dfsNode g fuel st' nbr) st').path) = st'.path := by
  intro l
  induction l with
  | nil => intro st'; rfl
  | cons nbr t ih =>
    intro st'
    rw [List.foldl_cons, ih]
    by_cases h1 : nbr ∈ st'.visited
    · by_cases h2 : nbr ∈ st'.path
      · simp [h1, h2]
      · simp [h1, h2]
    · simp [h1, hrec]

theorem dfs_path (g : List (String × List String)) :
    ∀ (fuel : Nat) (st : DfsState) (node : String), (dfsNode g fuel st node).path = st.path := by
  intro fuel
  induction fuel with
  | zero => intro st node; rfl
  | succ fuel ih =>
    intro st node
    rw [dfsNode_succ]
    show _ = st.path
    rw [dfs_fold_path g fuel ih]
    exact List.dropLast_concat

theorem head?_drop_eq (l : List String) :
    ∀ n : Nat, (l.drop n).head? = l.get? n := by
  induction l with
  | nil => intro n; cases n <;> rfl
  | cons a t ih =>
    intro n
    cases n with
    | zero => rfl
    | succ n => rw [List.drop_succ_cons, ih n]; rfl

theorem getLast?_drop_eq (l : List String) :
    ∀ n : Nat, n < l.length → (l.drop n).getLast? = l.getLast? := by
  induction l with
  | nil => intro n h; simp at h
  | cons a t ih =>
    intro n h
    cases n with
    | zero => rfl
    | succ n =>
      rw [List.drop_succ_cons, ih n (by simpa using h)]
      cases t with
      | nil => simp at h
      | cons b t2 => rw [List.getLast?_cons_cons]

theorem get?_indexOf (a : String) :
    ∀ l : List String, a ∈ l → l.get? (l.indexOf a) = some a := by
  intro l
  induction l with
  | nil => intro h; cases h
  | cons b t ih =>
    intro h
    by_cases hba : b = a
    · subst hba
      simp [List.indexOf, List.findIdx_cons]
    · have hmem : a ∈ t := by
        rcases List.mem_cons.mp h with h1 | h1
        · exact absurd h1.symm hba
        · exact h1
      have hbeq : (b == a) = false := beq_eq_false_iff_ne.mpr hba
      simp only [List.indexOf, List.findIdx_cons, hbeq, cond_false]
      exact ih hmem

theorem dfs_fold_cycles (g : List (String × List String)) (fuel : Nat) (node : String)
    (hrecP : ∀ (st : DfsState) (n2 : String),
      (∀ c ∈ st.cycles, CycleClosed g c) → ∀ c ∈ (dfsNode g fuel st n2).cycles, CycleClosed g c)
    (hrecPath : ∀ (st : DfsState) (n2 : String), (dfsNode g fuel st n2).path = st.path) :
    ∀ (l : List String) (st' : DfsState),
      (∀ x ∈ l, x ∈ lookupEdges g node) →
      st'.path.getLast? = some node →
      (∀ c ∈ st'.cycles, CycleClosed g c) →
      ∀ c ∈ ((l.foldl (fun st' nbr =>
          if nbr ∈ st'.visited then
            if nbr ∈ st'.path then
              { st' with cycles := st'.cycles ++ [st'.path.drop (st'.path.indexOf nbr)] }
            else st'
          else dfsNode g fuel st' nbr) st').cycles), CycleClosed g c := by
  intro l
  induction l with
  | nil => intro st' _ _ hcyc c hc; exact hcyc c hc
  | cons nbr t ih =>
    intro st' hmem hlast hcyc c hc
    rw [List.foldl_cons] at hc
    by_cases h1 : nbr ∈ st'.visited
    · by_cases h2 : nbr ∈ st'.path
      · rw [if_pos h1, if_pos h2] at hc
        refine ih { st' with cycles := st'.cycles ++ [st'.path.drop (st'.path.indexOf nbr)] }
          (fun x hx => hmem x (List.mem_cons_of_mem _ hx)) hlast ?_ c hc
        intro c0 hc0
        rcases List.mem_append.mp hc0 with hold | hnew
        · exact hcyc c0 hold
        · rcases List.mem_singleton.mp hnew with rfl
          have hidx : st'.path.indexOf nbr < st'.path.length :=
            List.indexOf_lt_length.mpr h2
          refine ⟨?_, node, ?_, nbr, ?_, hmem nbr (List.mem_cons_self _ _)⟩
          · intro hnil
            have := congrArg List.length hnil
            rw [List.length_drop] at this
            simp at this
            omega
          · rw [getLast?_drop_eq _ _ hidx]
            exact hlast
          · rw [head?_drop_eq]
            exact get?_indexOf nbr _ h2
      · rw [if_pos h1, if_neg h2] at hc
        exact ih _ (fun x hx => hmem x (List.mem_cons_of_mem _ hx)) hlast hcyc c hc
    · rw [if_neg h1] at hc
      refine ih _ (fun x hx => hmem x (List.mem_cons_of_mem _ hx)) ?_ ?_ c hc
      · rw [hrecPath]; exact hlast
      · exact hrecP st' nbr hcyc

theorem dfs_cycles (g : List (String × List String)) :
    ∀ (fuel : Nat) (st : DfsState) (node : String),
      (∀ c ∈ st.cycles, CycleClosed g c) →
      ∀ c ∈ (dfsNode g fuel st node).cycles, CycleClosed g c := by
  intro fuel
  induction fuel with
  | zero => intro st node h c hc; exact h c hc
  | succ fuel ih =>
    intro st node h c hc
    rw [dfsNode_succ] at hc
    refine dfs_fold_cycles g fuel node ih (dfs_path g fuel) (lookupEdges g node)
      { visited := node :: st.visited, path := st.path ++ [node], cycles := st.cycles }
      (fun x hx => hx) ?_ h c hc
    show (st.path ++ [node]).getLast? = some node
    rw [List.getLast?_concat]

theorem detectCycles_closed (g : List (String × List String)) :
    ∀ c ∈ detectCycles g, CycleClosed g c := by
  have aux : ∀ (l : List (String × List String)) (st : DfsState),
      (∀ c ∈ st.cycles, CycleClosed g c) →
      ∀ c ∈ (l.foldl
          (fun st kv => if kv.1 ∈ st.visited then st else dfsNode g (dfsFuel g) st kv.1)
          st).cycles, CycleClosed g c := by
    intro l
    induction l with
    | nil => intro st h c hc; exact h c hc
    | cons kv t ih =>
      intro st h c hc
      rw [List.foldl_cons] at hc
      by_cases h1 : kv.1 ∈ st.visited
      · rw [if_pos h1] at hc
        exact ih st h c hc
      · rw [if_neg h1] at hc
        exact ih _ (dfs_cycles g (dfsFuel g) st kv.1 h) c hc
  intro c hc
  exact aux g { visited := [], path := [], cycles := [] } (fun c0 hc0 => by cases hc0) c hc

/-- C6: every cycle emitted by `detectCycles` is the closing slice of the
DFS path — it is nonempty, ends at the node whose neighbor exploration
emitted it, and starts at the re-entered neighbor, to which that final
node has an edge; and in the cycle scenario (seed `a`, imports
`a → b → c → a`, `maxDepth = 5`) the node set is `{a, b, c}`, exactly one
cycle `[a, b, c]` is reported (the slice of the current path from the
first occurrence of the re-entered neighbor `a` through the current node
`c`), and all three nodes are flagged circular. -/
theorem c6_cycle_scenario :
    (∀ (g : List (String × List String)), ∀ c ∈ detectCycles g, CycleClosed g c) ∧
    nodeIds gCyc.nodes = ["a.ts", "b.ts", "c.ts"] ∧
    gCyc.cycles = [["a.ts", "b.ts", "c.ts"]] ∧
    (∀ n ∈ gCyc.nodes, n.isCircular = true) := by
  exact ⟨detectCycles_closed, by decide, by decide, by decide⟩

/-- C6 witness: the scenario's reported cycle is closed. -/
theorem c6_cycle_scenario_witness :
    ((["a.ts", "b.ts", "c.ts"] : List String) ∈
      detectCycles (finState fsCyc idxCyc ["a.ts"] 5).edgeMap) ∧
    CycleClosed (finState fsCyc idxCyc ["a.ts"] 5).edgeMap ["a.ts", "b.ts", "c.ts"] :=
  ⟨by decide,
   c6_cycle_scenario.1 (finState fsCyc idxCyc ["a.ts"] 5).edgeMap
     ["a.ts", "b.ts", "c.ts"] (by decide)⟩

/-- C8 counterexample: in the external-mix scenario the external package
`P` does not contribute to the seeded graph's external-package count — the
seeded builder reports `externalDeps = 0`. -/
theorem c8_counterexample :
    gMix.stats.externalDeps = 0 ∧ ¬ 1 ≤ gMix.stats.externalDeps := by
  decide

/-- C8 amended: seed `x` importing external package `P` and internal file
`y` yields exactly the nodes `{x, y}` and the single static edge `x → y`;
`P` never becomes a node, but it is not counted either — the seeded
builder's `externalDeps` statistic is always 0. -/
theorem c8_external_amended :
    (∀ (fsys : FS) (index : RepoIndex) (seeds : List String) (maxD : Nat) (now : String)
       (gc : Option String) (root : String),
       (buildDepGraphFromSeeds fsys index seeds maxD now gc root).stats.externalDeps = 0) ∧
    nodeIds gMix.nodes = ["x.ts", "y.ts"] ∧
    gMix.edges = [{ fromId := "x.ts", toId := "y.ts", kind := .static }] ∧
    "P" ∉ nodeIds gMix.nodes ∧
    gMix.stats.externalDeps = 0 :=
  ⟨fun _ _ _ _ _ _ _ => rfl, by decide, by decide, by decide, by decide⟩

/-- C9 counterexample: two invocations over an unchanged tree with
identical parameters do not produce byte-identical records — the
`generatedAt` timestamp field differs between runs. -/
theorem c9_counterexample :
    buildDepGraphFromSeeds fsMix idxMix ["x.ts"] 10 "2024-01-01T00:00:00.000Z" none "/repo" ≠
    buildDepGraphFromSeeds fsMix idxMix ["x.ts"] 10 "2024-01-01T00:00:01.000Z" none "/repo" := by
  decide

/-- C9 amended: for an unchanged tree and identical parameters, the
records produced by graph construction (both modes) and by slicing are
identical in every field except the `generatedAt` timestamp (the
`gitCommit` field is equal because an unchanged tree has an unchanged
commit). -/
theorem c9_determinism_amended (fsys : FS) (index : RepoIndex) (seeds : List String)
    (maxD : Nat) (gc : Option String) (root : String) (name : String)
    (maxFileBytes : Nat) (tokenBudget : Option Nat) (maxBytes : Nat) (exclude : List String)
    (now1 now2 : String) :
    eraseGraphTime (buildDepGraphFromSeeds fsys index seeds maxD now1 gc root) =
      eraseGraphTime (buildDepGraphFromSeeds fsys index seeds maxD now2 gc root) ∧
    eraseGraphTime (buildDepGraph fsys index now1 gc root) =
      eraseGraphTime (buildDepGraph fsys index now2 gc root) ∧
    eraseSliceTime (sliceFeature fsys index seeds name maxFileBytes tokenBudget maxBytes
        exclude maxD now1 gc root) =
      eraseSliceTime (sliceFeature fsys index seeds name maxFileBytes tokenBudget maxBytes
        exclude maxD now2 gc root) :=
  ⟨rfl, rfl, rfl⟩

/-! ## Resolver candidate order (C7) -/

theorem tryResolveFile_eq_find (fsys : FS) (basePath : String) :
    tryResolveFile fsys basePath =
      (specCandidates (stripExt basePath)).find? (fsExistsAt fsys) := by
  unfold tryResolveFile specCandidates
  rw [List.find?_append, List.find?_map, List.find?_map]
  have hc1 : (fsExistsAt fsys ∘ fun ext => stripExt basePath ++ ext) =
      (fun ext => fsExistsAt fsys (stripExt basePath ++ ext)) := rfl
  have hc2 : (fsExistsAt fsys ∘ fun ext => pathJoin (stripExt basePath) ("index" ++ ext)) =
      (fun ext => fsExistsAt fsys (pathJoin (stripExt basePath) ("index" ++ ext))) := rfl
  rw [hc1, hc2]
  cases h1 : knownExts.find? (fun ext => fsExistsAt fsys (stripExt basePath ++ ext)) with
  | some ext => simp [h1]
  | none =>
    cases h2 : knownExts.find?
        (fun ext => fsExistsAt fsys (pathJoin (stripExt basePath) ("index" ++ ext))) with
    | some ext => simp [h1, h2]
    | none => simp [h1, h2]

/-- C7: for every relative or alias-rewritten specifier, resolution is
never classified external; the specifier is rewritten to a base path,
resolution strips any recognized extension from it and returns the first
on-disk candidate among — in fixed priority order — each recognized
extension appended to the stripped path, then `index.<ext>` inside the
directory named after it; and when no candidate exists the result is
`path = none` with `isExternal = false`, distinguishable from the
external-package classification. -/
theorem c7_resolution_order (fsys : FS) (importSpec fromFile : String)
    (h : startsWithStr importSpec "." = true ∨ startsWithStr importSpec "@/" = true ∨
         startsWithStr importSpec "~/" = true) :
    (resolveImport fsys importSpec fromFile).isExternal = false ∧
    ∃ base : String,
      (resolveImport fsys importSpec fromFile).path =
        (specCandidates (stripExt base)).find? (fsExistsAt fsys) ∧
      ((∀ c ∈ specCandidates (stripExt base), fsExistsAt fsys c = false) →
        (resolveImport fsys importSpec fromFile).path = none) := by
  have hnone : ∀ (base : String),
      (∀ c ∈ specCandidates (stripExt base), fsExistsAt fsys c = false) →
      (specCandidates (stripExt base)).find? (fsExistsAt fsys) = none := by
    intro base hall
    exact List.find?_eq_none.mpr fun c hc => by simp [hall c hc]
  unfold resolveImport
  split_ifs with h1 h2 h3 h4
  · exfalso
    rcases h with hh | hh | hh
    · exact h1.1 hh
    · exact h1.2.1 hh
    · exact h1.2.2.1 hh
  · refine ⟨rfl, "src/" ++ dropStr importSpec 2, ?_, ?_⟩
    · exact tryResolveFile_eq_find fsys _
    · intro hall
      show tryResolveFile fsys _ = none
      rw [tryResolveFile_eq_find]
      exact hnone _ hall
  · refine ⟨rfl, dropStr importSpec 2, ?_, ?_⟩
    · exact tryResolveFile_eq_find fsys _
    · intro hall
      show tryResolveFile fsys _ = none
      rw [tryResolveFile_eq_find]
      exact hnone _ hall
  · refine ⟨rfl, normalizePath (pathJoin (dirname fromFile) importSpec), ?_, ?_⟩
    · exact tryResolveFile_eq_find fsys _
    · intro hall
      show tryResolveFile fsys _ = none
      rw [tryResolveFile_eq_find]
      exact hnone _ hall
  · exfalso
    rcases h with hh | hh | hh
    · exact h4 hh
    · exact h2 hh
    · exact h3 hh

/-- C7 witness: the relative specifier `./y` from `x.ts` on a filesystem
holding `y.ts`. -/
theorem c7_resolution_order_witness :
    (startsWithStr "./y" "." = true ∨ startsWithStr "./y" "@/" = true ∨
      startsWithStr "./y" "~/" = true) ∧
    ((resolveImport [("y.ts", "c")] "./y" "x.ts").isExternal = false ∧
     ∃ base : String,
       (resolveImport [("y.ts", "c")] "./y" "x.ts").path =
         (specCandidates (stripExt base)).find? (fsExistsAt [("y.ts", "c")]) ∧
       ((∀ c ∈ specCandidates (stripExt base), fsExistsAt [("y.ts", "c")] c = false) →
         (resolveImport [("y.ts", "c")] "./y" "x.ts").path = none)) :=
  ⟨Or.inl (by decide), c7_resolution_order [("y.ts", "c")] "./y" "x.ts" (Or.inl (by decide))⟩

/-! ## Glob double-star semantics (C10) -/

theorem data_append (s t : String) : (s ++ t).data = s.data ++ t.data := by
  cases s; cases t; rfl

theorem globTokens_lit_append (xs ds : List Char) (hstar : ('*' : Char) ∉ xs) :
    globTokens (xs ++ ds) = xs.map GTok.lit ++ globTokens ds := by
  induction xs with
  | nil => simp
  | cons c xs ih =>
    have hc : c ≠ '*' := fun hh => hstar (hh ▸ List.mem_cons_self _ _)
    rw [List.cons_append]
    show globTokens (c :: (xs ++ ds)) = _
    rw [globTokens.eq_def]
    simp only []
    rw [if_neg hc, ih (fun hm => hstar (List.mem_cons_of_mem _ hm))]
    rfl

theorem pRuns_any_empty (p : Char → Bool) :
    ∀ ds : List Char,
      ((pRuns p ds).any (fun s => s.isEmpty) = true ↔ ∀ c ∈ ds, p c = true) := by
  intro ds
  induction ds with
  | nil => simp [pRuns]
  | cons d ds ih =>
    cases hp : p d with
    | true => simp [pRuns, hp, ih]
    | false => simp [pRuns, hp]

theorem gmatch_dstar (ds : List Char) :
    (gmatch [GTok.dstar] ds = true ↔ ∀ c ∈ ds, c = '.') := by
  have h1 : gmatch [GTok.dstar] ds =
      (pRuns (fun c => c == '.') ds).any (fun s => s.isEmpty) := rfl
  rw [h1, pRuns_any_empty]
  constructor
  · intro h c hc; exact beq_iff_eq.mp (h c hc)
  · intro h c hc; exact beq_iff_eq.mpr (h c hc)

theorem gmatch_lits (xs : List Char) (ts : List GTok) :
    ∀ ds : List Char,
      (gmatch (xs.map GTok.lit ++ ts) ds = true ↔
        ∃ rest, ds = xs ++ rest ∧ gmatch ts rest = true) := by
  induction xs with
  | nil => intro ds; simp
  | cons c xs ih =>
    intro ds
    cases ds with
    | nil =>
      simp only [List.map_cons, List.cons_append, gmatch]
      constructor
      · intro h; cases h
      · rintro ⟨rest, h, _⟩; cases h
    | cons d ds =>
      simp only [List.map_cons, List.cons_append, gmatch, Bool.and_eq_true, beq_iff_eq,
        List.append_eq]
      rw [ih ds]
      constructor
      · rintro ⟨rfl, rest, rfl, hm⟩
        exact ⟨rest, rfl, hm⟩
      · rintro ⟨rest, heq, hm⟩
        rcases List.cons_eq_cons.mp heq with ⟨rfl, rfl⟩
        exact ⟨rfl, rest, rfl, hm⟩

/-- C10: because the dot-escaping replacement runs after the `**`
expansion, the `**` fragment of a compiled exclusion glob matches only a
run of literal `.` characters: a pattern `pfx ++ "**"` (no other stars in
`pfx`) matches exactly the subjects `pfx` followed by dots.  Consequently
`src/**` does not match the nested path `src/a/b.ts`, and exclusion
patterns relying on `**` never exclude such files from a slice
(`matchesPatterns` is the slicer's exclusion test). -/
theorem c10_doublestar (pfx s : String) (hstar : ('*' : Char) ∉ pfx.data) :
    (matchesPattern s (pfx ++ "**") = true ↔
      ∃ m : Nat, s.data = pfx.data ++ List.replicate m '.') ∧
    matchesPattern "src/a/b.ts" "src/**" = false ∧
    matchesPatterns "src/a/b.ts" ["src/**"] = false := by
  refine ⟨?_, by decide, by decide⟩
  unfold matchesPattern
  rw [data_append]
  have hdd : globTokens (("**" : String).data) = [GTok.dstar] := rfl
  rw [globTokens_lit_append pfx.data (("**" : String).data) hstar, hdd, gmatch_lits]
  constructor
  · rintro ⟨rest, hrest, hm⟩
    refine ⟨rest.length, ?_⟩
    rw [hrest]
    congr 1
    exact List.eq_replicate_length.mpr (gmatch_dstar rest |>.mp hm)
  · rintro ⟨m, hm⟩
    refine ⟨List.replicate m '.', hm, (gmatch_dstar _).mpr ?_⟩
    intro c hc
    exact List.eq_of_mem_replicate hc

/-- C10 witness: `pfx = "src/"` with subject `"src/.."`. -/
theorem c10_doublestar_witness :
    (('*' : Char) ∉ ("src/" : String).data) ∧
    ((matchesPattern "src/.." ("src/" ++ "**") = true ↔
       ∃ m : Nat, ("src/.." : String).data = ("src/" : String).data ++ List.replicate m '.') ∧
     matchesPattern "src/a/b.ts" "src/**" = false ∧
     matchesPatterns "src/a/b.ts" ["src/**"] = false) :=
  ⟨by decide, c10_doublestar "src/" "src/.." (by decide)⟩

end RepoIntel
